import Mathlib

/-!
# Integrad: durable job queue, log writer and command server

A shallow embedding of `jobqueue.go`, `logging.go` and `server.go`.

Modelling conventions.

* A bolt bucket is its list of key/value pairs in ascending key order together with its
  auto-increment sequence.  Keys are the 8-byte big-endian encodings produced by `itob`; the
  encoding is order preserving, so a key is represented by the unsigned number it encodes.
* Go's `int` is 64 bits wide.  Job numbers, the dispatch cursor and the sequences are bounded by
  the number of stored records plus one, so arithmetic on them never wraps and the conversion
  `int(id)` of a sequence value is the identity.  `itob` converts as `uint64(v)` does on the
  whole range of `int`.
* A stored job is the JSON document written by `json.Marshal(job)`: all four fields are present,
  `Args` is `null` or an object.  A JSON object and the contents of a Go map are both finite
  maps from strings to strings.
* A Go map is a reference.  `Job.Args` holds `nil` or the address of a map in a heap of maps, so
  that struct copies share the map, as they do in Go.
* `time.Time` values are abstract instants, represented by natural numbers.
* Store transactions are taken to commit; their error results are not modelled.
-/

namespace Integrad

/-! ## Data model -/

/-- Go type `JobStatus` with its four constants (jobqueue.go:14-21). -/
inductive JobStatus where
  | Queued
  | Active
  | Succeeded
  | Failed
deriving DecidableEq, Repr

/-- Contents of a Go `map[string]string`, also the contents of a JSON object of strings. -/
abbrev GoMap := Finmap (fun _ : String => String)

/-- An instant as returned by `time.Now()`. -/
abbrev Time := Nat

/-- The JSON document of a job as it is stored under its key: `json.Marshal(job)`. -/
structure JobRecord where
  Number : Int
  Args : Option GoMap
  Status : JobStatus
  Updated : Time
deriving DecidableEq

/-- Go struct `Job` (jobqueue.go:33-38); `Args` is `nil` or the address of a map. -/
structure Job where
  Number : Int
  Args : Option Nat
  Status : JobStatus
  Updated : Time
deriving DecidableEq

/-- The maps allocated so far; an address is an index into the list. -/
abbrev Heap := List GoMap

/-- The zero value of `Job`, the value of `var job Job`. -/
def Job.zero : Job :=
  { Number := 0, Args := none, Status := JobStatus.Queued, Updated := 0 }

/-- Contents of the map at address `a`. -/
def Heap.read (heap : Heap) (a : Nat) : GoMap :=
  heap.getD a ∅

/-- Function `json.Marshal(job)`: the document of a `Job`, the map read through its address. -/
def Marshal (job : Job) (heap : Heap) : JobRecord :=
  { Number := job.Number
    Args := job.Args.map (fun a => Heap.read heap a)
    Status := job.Status
    Updated := job.Updated }

/-- Function `json.Unmarshal(v, &job)` on a stored document.  The scalar fields are overwritten.
For `Args`, `null` sets the field to `nil`; an object is stored into the map the field already
refers to, keeping the entries that are there, and a map is allocated only when the field is
`nil` (documented behaviour of `encoding/json`). -/
def Unmarshal (v : JobRecord) (job : Job) (heap : Heap) : Job × Heap :=
  match v.Args with
  | none =>
    ({ Number := v.Number, Args := none, Status := v.Status, Updated := v.Updated }, heap)
  | some obj =>
    match job.Args with
    | none =>
      ({ Number := v.Number, Args := some heap.length, Status := v.Status,
         Updated := v.Updated }, heap ++ [obj ∪ ∅])
    | some a =>
      ({ Number := v.Number, Args := some a, Status := v.Status, Updated := v.Updated },
       heap.set a (obj ∪ Heap.read heap a))

/-! ## The store -/

/-- A bolt bucket: pairs in ascending key order, and the auto-increment sequence. -/
structure Bucket (V : Type) where
  entries : List (Nat × V)
  sequence : Nat
deriving DecidableEq

/-- Value stored under `key` in an ordered list of pairs. -/
def lookupKV {V : Type} (key : Nat) : List (Nat × V) → Option V
  | [] => none
  | (k, v) :: rest => if k = key then some v else lookupKV key rest

/-- Ordered insertion that replaces the value of a key already present. -/
def insertKV {V : Type} (key : Nat) (v : V) : List (Nat × V) → List (Nat × V)
  | [] => [(key, v)]
  | (k, w) :: rest =>
    if key < k then (key, v) :: (k, w) :: rest
    else if key = k then (key, v) :: rest
    else (k, w) :: insertKV key v rest

/-- A bucket that was just created. -/
def Bucket.empty {V : Type} : Bucket V :=
  { entries := [], sequence := 0 }

/-- Method `bucket.Get(key)`; `none` is the nil slice of an absent key. -/
def Bucket.Get {V : Type} (b : Bucket V) (key : Nat) : Option V :=
  lookupKV key b.entries

/-- Method `bucket.Put(key, value)`. -/
def Bucket.Put {V : Type} (b : Bucket V) (key : Nat) (v : V) : Bucket V :=
  { b with entries := insertKV key v b.entries }

/-- Method `bucket.NextSequence()`: increments the sequence and returns the new value. -/
def Bucket.NextSequence {V : Type} (b : Bucket V) : Nat × Bucket V :=
  (b.sequence + 1, { b with sequence := b.sequence + 1 })

/-- Field `bucket.Stats().KeyN`: the number of keys. -/
def Bucket.KeyN {V : Type} (b : Bucket V) : Nat :=
  b.entries.length

/-- The keys of a bucket in ascending order. -/
def Bucket.keys {V : Type} (b : Bucket V) : List Nat :=
  b.entries.map Prod.fst

/-- Function `itob` (jobqueue.go:217-221): the key of `v`, the number `uint64(v)`. -/
def itob (v : Int) : Nat :=
  if 0 ≤ v then v.toNat else (v + 18446744073709551616).toNat

/-! ## Job queue -/

/-- Go struct `JobQueue` (jobqueue.go:40-49) with the state its goroutines act on.

* `jobs` is the bucket `queue.name` of `queue.db`;
* `current` is the dispatch cursor;
* `job` is the variable `job` of `readWorker`, declared once outside its loop;
* `sending` holds while `readWorker` is at `queue.Output <- job`, after a transaction that
  found a record;
* `Output` lists the values sent on the channel, oldest first;
* `pending` lists the jobs a worker has received and whose `FinishJob` transaction has not
  run yet. -/
structure JobQueue where
  jobs : Bucket JobRecord
  heap : Heap
  current : Int
  job : Job
  sending : Bool
  Output : List Job
  pending : List Job
deriving DecidableEq

/-- The loop of NewJobQueue (jobqueue.go:72-81) over the pairs from `cursor.Last()` backward.
`json.Unmarshal(v, &job)` overwrites `job.Status`, the only field the loop reads. -/
def scanQueued (queuedCount : Int) : List (Nat × JobRecord) → Int
  | [] => queuedCount
  | (_, v) :: rest =>
    if v.Status ≠ JobStatus.Queued then queuedCount else scanQueued (queuedCount + 1) rest

/-- Function `NewJobQueue` (jobqueue.go:51-103) on the bucket that `CreateBucketIfNotExists`
returned: recovery of the cursor, then a queue with a fresh `readWorker`. -/
def NewJobQueue (bucket : Bucket JobRecord) : JobQueue :=
  let jobCount : Int := bucket.KeyN
  let queuedCount := scanQueued 0 bucket.entries.reverse
  { jobs := bucket
    heap := []
    current := (jobCount - queuedCount) + 1
    job := Job.zero
    sending := false
    Output := []
    pending := [] }

/-- Method `AddJob` (jobqueue.go:105-128): the transaction and the returned job, whose `Args`
are the contents of the caller's map. -/
def AddJob (queue : JobQueue) (args : Option GoMap) (now : Time) : JobRecord × JobQueue :=
  let seq := queue.jobs.NextSequence
  let job : JobRecord :=
    { Number := (seq.1 : Int), Args := args, Status := JobStatus.Queued, Updated := now }
  (job, { queue with jobs := seq.2.Put (itob job.Number) job })

/-- Successive `AddJob` calls, one per element of `reqs`; returns the jobs in call order. -/
def AddJobs (queue : JobQueue) : List (Option GoMap × Time) → List JobRecord × JobQueue
  | [] => ([], queue)
  | (args, now) :: rest =>
    let r := AddJob queue args now
    let rs := AddJobs r.2 rest
    (r.1 :: rs.1, rs.2)

/-- Spec wording of Q: the number of contiguous trailing jobs `n, n-1, ...` whose status is
Queued, counted by job number. -/
def trailingQueued (b : Bucket JobRecord) : Nat → Nat
  | 0 => 0
  | k + 1 =>
    match b.Get (k + 1) with
    | some r => if r.Status = JobStatus.Queued then trailingQueued b k + 1 else 0
    | none => 0

/-- Status of the job stored under number `k`. -/
def statusOf (b : Bucket JobRecord) (k : Nat) : Option JobStatus :=
  (b.Get k).map JobRecord.Status

/-- A store with a finished, an interrupted and a waiting job. -/
def sampleBucket : Bucket JobRecord :=
  { entries :=
      [(1, { Number := 1, Args := none, Status := JobStatus.Succeeded, Updated := 5 }),
       (2, { Number := 2, Args := none, Status := JobStatus.Active, Updated := 6 }),
       (3, { Number := 3, Args := none, Status := JobStatus.Queued, Updated := 7 })]
    sequence := 3 }


/-! ## Dispatch and completion -/

/-- The transaction of `readWorker` (jobqueue.go:180-200) and the test `buf == nil` after it.
With no record under the cursor the loop waits for a notification and starts over, the queue
is unchanged.  Otherwise the record is decoded into the loop's variable `job`, marked Active
and written back, and the loop proceeds to the send. -/
def readWorkerUpdate (queue : JobQueue) : JobQueue :=
  let key := itob queue.current
  match queue.jobs.Get key with
  | none => queue
  | some buf =>
    let r := Unmarshal buf queue.job queue.heap
    let job : Job := { r.1 with Status := JobStatus.Active }
    { queue with
      jobs := queue.jobs.Put key (Marshal job r.2)
      heap := r.2
      job := job
      sending := true }

/-- The send of `readWorker` (jobqueue.go:212-213): `queue.Output <- job`, taken by a worker,
then `queue.current++`.  The worker holds the job until its `FinishJob` transaction runs. -/
def readWorkerSend (queue : JobQueue) : JobQueue :=
  { queue with
    Output := queue.Output ++ [queue.job]
    pending := queue.pending ++ [queue.job]
    current := queue.current + 1
    sending := false }

/-- One move of the goroutine `readWorker` (jobqueue.go:174-215): the transaction when the
loop is at its head, the send when the transaction found a record. -/
def readWorker (queue : JobQueue) : JobQueue :=
  if queue.sending then readWorkerSend queue else readWorkerUpdate queue

/-- The transaction started by `FinishJob` (jobqueue.go:130-157) for the job a worker holds.
`json.Unmarshal` fails on the nil slice of an absent key and nothing is written.  Otherwise
the record is decoded into the parameter `job`, whose map is the one the worker received. -/
def FinishJob (queue : JobQueue) (job : Job) (success : Bool) : JobQueue :=
  let newStatus := if !success then JobStatus.Failed else JobStatus.Succeeded
  let key := itob job.Number
  match queue.jobs.Get key with
  | none => queue
  | some buf =>
    let r := Unmarshal buf job queue.heap
    let job : Job := { r.1 with Status := newStatus }
    { queue with
      jobs := queue.jobs.Put key (Marshal job r.2)
      heap := r.2 }

/-- What can happen next to a queue: an `AddJob` call, a move of `readWorker`, the `FinishJob`
transaction of the `i`-th held job, or the end of the process followed by a new start. -/
inductive Event where
  | addJob (args : Option GoMap) (now : Time)
  | dispatch
  | finish (i : Nat) (success : Bool)
  | reopen
deriving DecidableEq

/-- The queue after an event.  A `finish` that names no held job changes nothing. -/
def step (queue : JobQueue) : Event → JobQueue
  | Event.addJob args now => (AddJob queue args now).2
  | Event.dispatch => readWorker queue
  | Event.finish i success =>
    match queue.pending[i]? with
    | none => queue
    | some job => FinishJob { queue with pending := queue.pending.eraseIdx i } job success
  | Event.reopen => NewJobQueue queue.jobs

/-- The queue after a sequence of events. -/
def run (queue : JobQueue) (events : List Event) : JobQueue :=
  events.foldl step queue

/-- Position of a status on the path Queued, Active, then Succeeded or Failed. -/
def JobStatus.stage : JobStatus → Nat
  | JobStatus.Queued => 0
  | JobStatus.Active => 1
  | JobStatus.Succeeded => 2
  | JobStatus.Failed => 2

/-- A store written by `AddJob`: keys exactly 1..n, sequence n, every record carrying its key
as its Number. -/
def StoreOK (b : Bucket JobRecord) (n : Nat) : Prop :=
  b.keys = List.range' 1 n ∧ b.sequence = n ∧ ∀ e ∈ b.entries, e.2.Number = (e.1 : Int)

instance (b : Bucket JobRecord) (n : Nat) : Decidable (StoreOK b n) := by
  unfold StoreOK
  infer_instance

/-- Two deploys: the first names a commit, the second does not. -/
def twoAdds : List Event :=
  [Event.addJob (some ((Finmap.singleton "source" "/srv/a").insert "git" "v1")) 10,
   Event.addJob (some (Finmap.singleton "source" "/srv/b")) 11]

/-- The two deploys, then the first job taken and sent and the second job taken. -/
def twoDeploys : List Event :=
  twoAdds ++ [Event.dispatch, Event.dispatch, Event.dispatch]

/-- What holds of a queue at every moment: the store is one written by `AddJob`, the cursor is
not negative, a job about to be sent is the one under the cursor and is Active in the store,
and every held job was sent from below the cursor. -/
def Base (s : JobQueue) : Prop :=
  (∃ n, StoreOK s.jobs n)
  ∧ 0 ≤ s.current
  ∧ (s.sending = true →
      s.job.Number = s.current ∧ s.job.Status = JobStatus.Active
      ∧ statusOf s.jobs (itob s.current) = some JobStatus.Active)
  ∧ (∀ j ∈ s.pending, 0 ≤ j.Number ∧ j.Number < s.current)

/-- What ties the statuses in the store to the queue: every job from the cursor on is Queued,
except the job about to be sent; every held job is Active; held jobs have distinct, increasing
numbers. -/
def Forward (s : JobQueue) : Prop :=
  (∀ k : Nat, s.current ≤ (k : Int) → (s.sending = true → (k : Int) ≠ s.current) →
      ∀ st, statusOf s.jobs k = some st → st = JobStatus.Queued)
  ∧ (∀ j ∈ s.pending, statusOf s.jobs (itob j.Number) = some JobStatus.Active)
  ∧ s.pending.Pairwise (fun a b => a.Number < b.Number)

/-- A status and a later status of the same job: not further back on the path, and unchanged
once the job is Succeeded or Failed. -/
def Advances (a b : JobStatus) : Prop :=
  a.stage ≤ b.stage ∧ (a.stage = 2 → b = a)

instance (a b : JobStatus) : Decidable (Advances a b) := by
  unfold Advances
  infer_instance

/-! ## Log writer -/

/-- The loop of a flush (logging.go:79-84): `jb.Put(itob(id+i), []byte(msg))` for the
elements of the buffer from index `i` on. -/
def putBuffer (jb : Bucket String) (id : Int) : Nat → List String → Bucket String
  | _, [] => jb
  | i, msg :: rest => putBuffer (jb.Put (itob (id + (i : Int))) msg) id (i + 1) rest

/-- The transaction of a flush (logging.go:72-87): one call of `NextSequence`, then the whole
buffer written from the key it returned. -/
def flush (jb : Bucket String) (buffer : List String) : Bucket String :=
  let seq := jb.NextSequence
  let id : Int := (seq.1 : Int)
  putBuffer seq.2 id 0 buffer

/-- The outer loop of `dbWorker` (logging.go:57-91).  Each element of `windows` lists the
chunks received between two wake-ups; they are appended to the buffer, which is then flushed.
The buffer is never emptied. -/
def dbWorkerLoop (jb : Bucket String) (buffer : List String) :
    List (List String) → Bucket String × List String
  | [] => (jb, buffer)
  | window :: rest => dbWorkerLoop (flush jb (buffer ++ window)) (buffer ++ window) rest

/-- Function `dbWorker` (logging.go:50-92) on the job's log bucket.  `ticks` are the windows
ended by the ticker, `last` is the window ended by the closing of the input.  The buffer starts
as `make([]string, 64)`, sixty-four empty strings. -/
def dbWorker (jb : Bucket String) (ticks : List (List String)) (last : List String) :
    Bucket String :=
  (dbWorkerLoop jb (List.replicate 64 "") (ticks ++ [last])).1

/-- The top-level bucket `logs`: `none` while it was never created, else its nested buckets
by name. -/
abbrev LogStore := Option (List (String × Bucket String))

/-- Nested bucket `name` of the log store; `none` is a nil bucket. -/
def logBucket (logs : LogStore) (name : String) : Option (Bucket String) :=
  match logs with
  | none => none
  | some nested => (nested.find? (fun e => e.1 = name)).map Prod.snd

/-- The nested buckets with bucket `name` set to `jb`. -/
def setNested (name : String) (jb : Bucket String) :
    List (String × Bucket String) → List (String × Bucket String)
  | [] => [(name, jb)]
  | (k, b) :: rest => if k = name then (k, jb) :: rest else (k, b) :: setNested name jb rest

/-- Name of the log bucket of a job: `fmt.Sprintf("job-%d", number)`. -/
def jobBucketName (number : Int) : String :=
  "job-" ++ toString number

/-- The transaction of `NewDbWriter` (logging.go:21-31): both buckets are created when they do
not exist. -/
def NewDbWriter (logs : LogStore) (jobBucket : String) : LogStore :=
  match logBucket logs jobBucket with
  | some _ => logs
  | none => some (setNested jobBucket Bucket.empty (logs.getD []))

/-- A writer from `NewDbWriter` to the last flush of its `dbWorker`: the log store after the
chunks of `ticks` and `last` were written to the writer of bucket `jobBucket`. -/
def writeLogs (logs : LogStore) (jobBucket : String) (ticks : List (List String))
    (last : List String) : LogStore :=
  let opened := NewDbWriter logs jobBucket
  match logBucket opened jobBucket with
  | none => opened
  | some jb => some (setNested jobBucket (dbWorker jb ticks last) (opened.getD []))

/-! ## Command server -/

/-- Go struct `ClientCommand` (client.go:13-16). -/
structure ClientCommand where
  Command : String
  Args : Option GoMap

/-- The bolt database: bucket `jobs` and bucket `logs`. -/
structure DB where
  jobs : Bucket JobRecord
  logs : LogStore

/-- Go structs `DeployResponse`, `StatusResponse` and `LogsResponse` (client.go:18-29), the
documents that the handlers marshal. -/
inductive Response where
  | deploy (job : JobRecord)
  | status (statuses : List JobRecord)
  | logs (job : JobRecord) (logs : List String)
deriving DecidableEq

/-- Result pair `(response, err)` of a handler: a response with a nil error, or the empty
response with an error; or a panic raised inside the handler. -/
inductive Outcome where
  | ok (response : Response)
  | error (msg : String)
  | panic (msg : String)
deriving DecidableEq

/-- Expression `args[key]` with its presence flag; a nil map has no keys. -/
def argLookup (args : Option GoMap) (key : String) : Option String :=
  match args with
  | none => none
  | some m => m.lookup key

/-- Value of a run of decimal digits, `none` when a character is not a digit. -/
def digitsValue (acc : Nat) : List Char → Option Nat
  | [] => some acc
  | c :: cs =>
    if c.isDigit then digitsValue (acc * 10 + (c.toNat - 48)) cs else none

/-- Function `strconv.Atoi`: the value and the error.  A syntax error returns 0, a range error
returns the nearest bound of `int`. -/
def Atoi (s : String) : Int × Option String :=
  let neg := s.data.head? = some '-'
  let digits := if s.data.head? = some '-' ∨ s.data.head? = some '+' then s.data.tail else s.data
  if digits = [] then (0, some "strconv.Atoi: invalid syntax")
  else
    match digitsValue 0 digits with
    | none => (0, some "strconv.Atoi: invalid syntax")
    | some n =>
      if neg then
        if n ≤ 9223372036854775808 then (-(n : Int), none)
        else (-9223372036854775808, some "strconv.Atoi: value out of range")
      else
        if n < 9223372036854775808 then ((n : Int), none)
        else (9223372036854775807, some "strconv.Atoi: value out of range")

/-- Error of `json.Unmarshal` on the nil slice of an absent key. -/
def unexpectedEnd : String := "unexpected end of JSON input"

/-- Function `respondDeploy` (server.go:19-34). -/
def respondDeploy (args : Option GoMap) (queue : JobQueue) (now : Time) :
    Outcome × JobQueue :=
  let r := AddJob queue args now
  (Outcome.ok (Response.deploy r.1), r.2)

/-- Function `respondRestart` (server.go:36-66).  The error of `Atoi` is overwritten before it
is read.  The stored job is decoded into a fresh variable, whose map no one else holds. -/
def respondRestart (args : Option GoMap) (queue : JobQueue) (now : Time) :
    Outcome × JobQueue :=
  let jobNumber := (Atoi ((argLookup args "job").getD "")).1
  match queue.jobs.Get (itob jobNumber) with
  | none => (Outcome.error unexpectedEnd, queue)
  | some rawJob =>
    let d := Unmarshal rawJob Job.zero []
    let r := AddJob queue (Marshal d.1 d.2).Args now
    (Outcome.ok (Response.deploy r.1), r.2)

/-- The loop of `respondStatus` (server.go:88-95) over the pairs from `cursor.Last()`
backward.  Every record is decoded into the one variable `job`, and a copy of `job` is
appended to `statuses`. -/
def statusLoop (job : Job) (heap : Heap) (statuses : List Job) :
    List (Nat × JobRecord) → List Job × Heap
  | [] => (statuses, heap)
  | (_, v) :: rest =>
    let d := Unmarshal v job heap
    statusLoop d.1 d.2 (statuses ++ [d.1]) rest

/-- Function `respondStatus` (server.go:68-112).  The response is marshalled after the loop,
from the maps as they are then. -/
def respondStatus (args : Option GoMap) (db : DB) : Outcome :=
  match argLookup args "job" with
  | some jobId =>
    match Atoi jobId with
    | (_, some err) => Outcome.error err
    | (jobNumber, none) =>
      match db.jobs.Get (itob jobNumber) with
      | none => Outcome.error unexpectedEnd
      | some rawJob =>
        let d := Unmarshal rawJob Job.zero []
        Outcome.ok (Response.status [Marshal d.1 d.2])
  | none =>
    let r := statusLoop Job.zero [] [] db.jobs.entries.reverse
    Outcome.ok (Response.status (r.1.map (fun job => Marshal job r.2)))

/-- Function `respondLogs` (server.go:114-155).  A nil `logs` bucket or a nil bucket of the
job makes the method call on it panic. -/
def respondLogs (args : Option GoMap) (db : DB) : Outcome :=
  match Atoi ((argLookup args "job").getD "") with
  | (_, some err) => Outcome.error err
  | (jobNumber, none) =>
    match db.jobs.Get (itob jobNumber) with
    | none => Outcome.error unexpectedEnd
    | some rawJob =>
      let d := Unmarshal rawJob Job.zero []
      match logBucket db.logs (jobBucketName jobNumber) with
      | none => Outcome.panic "invalid memory address or nil pointer dereference"
      | some jobLogs =>
        Outcome.ok (Response.logs (Marshal d.1 d.2) (jobLogs.entries.map Prod.snd))

/-- Function `executeCommand` (server.go:205-222). -/
def executeCommand (command : ClientCommand) (queue : JobQueue) (logs : LogStore)
    (now : Time) : Outcome × JobQueue :=
  if command.Command = "deploy" then respondDeploy command.Args queue now
  else if command.Command = "restart" then respondRestart command.Args queue now
  else if command.Command = "logs" then
    (respondLogs command.Args { jobs := queue.jobs, logs := logs }, queue)
  else if command.Command = "status" then
    (respondStatus command.Args { jobs := queue.jobs, logs := logs }, queue)
  else if command.Command = "shutdown" then (Outcome.error "Shutdown", queue)
  else (Outcome.error ("Unknown command: " ++ command.Command), queue)

/-- What the `select` of the server loop receives: a signal, or a connection, given by what
`json.Unmarshal` makes of its first line, `none` when it returns an error. -/
inductive Incoming where
  | signal
  | conn (command : Option ClientCommand)

/-- What the loop did with a connection: the line it wrote, if any, the response being `none`
for the empty string, and whether it closed the connection. -/
structure Handled where
  written : Option (Option Response)
  closed : Bool
deriving DecidableEq

/-- State of the loop of `RunServer`: the queue and the log store, the flag `running`, the
lines logged, and the connections taken so far. -/
structure Server where
  queue : JobQueue
  logs : LogStore
  running : Bool
  logged : List String
  handled : List Handled

/-- Result of one pass of the loop: the next state, or a panic that ends the process. -/
inductive Pass where
  | next (server : Server)
  | panic (msg : String)

/-- One pass of the loop of `RunServer` (server.go:269-304).  `strings.HasPrefix` compares the
leading characters.  The line logged for malformed JSON stands for the decoder's message. -/
def RunServer (s : Server) (incoming : Incoming) (now : Time) : Pass :=
  match incoming with
  | Incoming.signal =>
    Pass.next { s with logged := s.logged ++ ["Received shutdown signal"], running := false }
  | Incoming.conn none =>
    Pass.next { s with
      logged := s.logged ++ ["Error: invalid JSON"]
      handled := s.handled ++ [{ written := none, closed := false }] }
  | Incoming.conn (some command) =>
    match executeCommand command s.queue s.logs now with
    | (Outcome.panic msg, _) => Pass.panic msg
    | (Outcome.ok response, queue) =>
      Pass.next { s with
        queue := queue
        handled := s.handled ++ [{ written := some (some response), closed := true }] }
    | (Outcome.error msg, queue) =>
      if msg = "Shutdown" then
        Pass.next { s with
          queue := queue
          logged := s.logged ++ ["Shutdown command received"]
          running := false
          handled := s.handled ++ [{ written := some none, closed := true }] }
      else if "Unknown command".data.isPrefixOf msg.data then
        Pass.next { s with
          queue := queue
          logged := s.logged ++ [msg]
          handled := s.handled ++ [{ written := some none, closed := true }] }
      else Pass.panic msg

/-- The records of the flushes overtaken by later ones: keys 1..g, each an empty string. -/
def pad (g : Nat) : List (Nat × String) :=
  (List.range' 1 g).map (fun k => (k, ""))

/-- The buffer as written by the latest flush, from key `a` on. -/
def block (a : Nat) (buffer : List String) : List (Nat × String) :=
  List.zip (List.range' a buffer.length) buffer

/-- The log bucket after `f` flushes, the latest of which wrote `buffer`. -/
def LogInv (f : Nat) (jb : Bucket String) (buffer : List String) : Prop :=
  jb.sequence = f
  ∧ (∃ rest, buffer = "" :: rest)
  ∧ (f = 0 → jb.entries = [])
  ∧ (1 ≤ f → jb.entries = pad (f - 1) ++ block f buffer)

/-- Two stored jobs with different sources. -/
def twoJobs : Bucket JobRecord :=
  { entries :=
      [(1, { Number := 1, Args := some (Finmap.singleton "source" "/srv/a"),
             Status := JobStatus.Succeeded, Updated := 10 }),
       (2, { Number := 2, Args := some (Finmap.singleton "source" "/srv/b"),
             Status := JobStatus.Queued, Updated := 11 })]
    sequence := 2 }

/-- A deploy, its dispatch and its completion. -/
def oneDeploy : List Event :=
  [Event.addJob none 10, Event.dispatch, Event.dispatch, Event.finish 0 true]

/-- Argument `name` in the Args of the record stored under number `k`. -/
def argOf (b : Bucket JobRecord) (k : Nat) (name : String) : Option String :=
  match b.Get k with
  | none => none
  | some r => argLookup r.Args name

/-- Argument `name` of the `i`-th job sent on Output, read through its map. -/
def sentArg (q : JobQueue) (i : Nat) (name : String) : Option String :=
  match q.Output[i]? with
  | none => none
  | some job => argLookup (Marshal job q.heap).Args name

/-- A server that has just started on an empty database. -/
def freshServer : Server :=
  { queue := NewJobQueue Bucket.empty
    logs := none
    running := true
    logged := []
    handled := [] }

/-- The loop answered the connection it took: it wrote a line to it and closed it. -/
def Answered (s t : Server) : Prop :=
  ∃ h, t.handled = s.handled ++ [h] ∧ h.written ≠ none ∧ h.closed = true

/-- The verbs that `executeCommand` knows. -/
def knownVerbs : List String :=
  ["deploy", "restart", "logs", "status", "shutdown"]

/-- The verbs whose handlers look a job up by the number in the argument `job`. -/
def queryVerbs : List String :=
  ["status", "restart", "logs"]

/-- A running server whose store holds jobs 1 and 2. -/
def busyServer : Server :=
  { queue := NewJobQueue twoJobs
    logs := none
    running := true
    logged := []
    handled := [] }

theorem lookupKV_append_of_not_mem {V : Type} (key : Nat) (l₁ l₂ : List (Nat × V))
    (h : key ∉ l₁.map Prod.fst) : lookupKV key (l₁ ++ l₂) = lookupKV key l₂ := by
  induction l₁ with
  | nil => rfl
  | cons e t ih =>
    obtain ⟨k, v⟩ := e
    simp only [List.map_cons, List.mem_cons, not_or] at h
    have hk : ¬ k = key := fun e => h.1 e.symm
    simp [lookupKV, hk, ih h.2]

theorem lookupKV_append_of_mem {V : Type} (key : Nat) (l₁ l₂ : List (Nat × V))
    (h : key ∈ l₁.map Prod.fst) : lookupKV key (l₁ ++ l₂) = lookupKV key l₁ := by
  induction l₁ with
  | nil => simp at h
  | cons e t ih =>
    obtain ⟨k, v⟩ := e
    by_cases hk : k = key
    · simp [lookupKV, hk]
    · simp only [List.map_cons, List.mem_cons] at h
      have ht : key ∈ t.map Prod.fst := by
        rcases h with h | h
        · exact absurd h.symm hk
        · exact h
      simp [lookupKV, hk, ih ht]

theorem insertKV_append_of_lt {V : Type} (key : Nat) (v : V) (l₁ l₂ : List (Nat × V))
    (h : ∀ k ∈ l₁.map Prod.fst, k < key) :
    insertKV key v (l₁ ++ l₂) = l₁ ++ insertKV key v l₂ := by
  induction l₁ with
  | nil => rfl
  | cons e t ih =>
    obtain ⟨k, w⟩ := e
    have hk : k < key := h k (by simp)
    have ht : ∀ k ∈ t.map Prod.fst, k < key := fun x hx => h x (by simp [hx])
    have h1 : ¬ key < k := by omega
    have h2 : ¬ key = k := by omega
    simp [insertKV, h1, h2, ih ht]

theorem mem_range'_one (k n : Nat) : k ∈ List.range' 1 n ↔ 1 ≤ k ∧ k ≤ n := by
  rw [List.mem_range'_1]
  omega

/-! ## Recovery of the cursor -/

theorem scanQueued_acc (a : Int) (l : List (Nat × JobRecord)) :
    scanQueued a l = a + scanQueued 0 l := by
  induction l generalizing a with
  | nil => simp [scanQueued]
  | cons e t ih =>
    obtain ⟨k, v⟩ := e
    by_cases h : v.Status = JobStatus.Queued
    · simp only [scanQueued, h, ne_eq, not_true_eq_false, if_false]
      rw [ih (a + 1), ih (0 + 1)]
      omega
    · simp [scanQueued, h]

theorem trailingQueued_congr (b c : Bucket JobRecord) (n : Nat)
    (h : ∀ k, 1 ≤ k → k ≤ n → b.Get k = c.Get k) :
    trailingQueued b n = trailingQueued c n := by
  induction n with
  | zero => rfl
  | succ m ih =>
    have hm : trailingQueued b m = trailingQueued c m :=
      ih (fun k h1 h2 => h k h1 (by omega))
    simp only [trailingQueued, h (m + 1) (by omega) (le_refl _), hm]

theorem entries_split_last {V : Type} (es : List (Nat × V)) (n : Nat)
    (h : es.map Prod.fst = List.range' 1 (n + 1)) :
    ∃ init v, es = init ++ [(n + 1, v)] ∧ init.map Prod.fst = List.range' 1 n := by
  rcases List.eq_nil_or_concat es with h0 | ⟨init, e, he⟩
  · subst h0
    simp [List.range'] at h
  · subst he
    obtain ⟨k, v⟩ := e
    rw [List.range'_1_concat, List.concat_eq_append, List.map_append] at h
    simp only [List.map_cons, List.map_nil] at h
    have hlen : (init.map Prod.fst).length = (List.range' 1 n).length := by
      have := congrArg List.length h
      simp only [List.length_append, List.length_singleton] at this
      omega
    have := List.append_inj h hlen
    refine ⟨init, v, ?_, this.1⟩
    have hk : k = 1 + n := by simpa using this.2
    rw [List.concat_eq_append, hk, Nat.add_comm]

theorem scanQueued_eq_trailingQueued (es : List (Nat × JobRecord)) (s n : Nat)
    (h : es.map Prod.fst = List.range' 1 n) :
    scanQueued 0 es.reverse = (trailingQueued { entries := es, sequence := s } n : Int) := by
  induction n generalizing es with
  | zero =>
    have : es = [] := by simpa using h
    subst this
    simp [scanQueued, trailingQueued]
  | succ m ih =>
    obtain ⟨init, v, rfl, hinit⟩ := entries_split_last es m h
    have hnot : m + 1 ∉ init.map Prod.fst := by
      rw [hinit, mem_range'_one]
      omega
    have hget : Bucket.Get { entries := init ++ [(m + 1, v)], sequence := s } (m + 1)
        = some v := by
      simp [Bucket.Get, lookupKV_append_of_not_mem _ _ _ hnot, lookupKV]
    have hcongr : trailingQueued { entries := init ++ [(m + 1, v)], sequence := s } m
        = trailingQueued { entries := init, sequence := s } m := by
      apply trailingQueued_congr
      intro k h1 h2
      have hk : k ∈ init.map Prod.fst := by
        rw [hinit, mem_range'_one]
        omega
      simp [Bucket.Get, lookupKV_append_of_mem _ _ _ hk]
    rw [List.reverse_append, List.reverse_singleton, List.singleton_append]
    simp only [trailingQueued, hget, hcongr]
    by_cases hq : v.Status = JobStatus.Queued
    · simp only [scanQueued, hq, ne_eq, not_true_eq_false, if_false, if_true]
      rw [scanQueued_acc, ih init hinit]
      push_cast
      omega
    · simp [scanQueued, hq]

theorem trailingQueued_all (b : Bucket JobRecord) (n : Nat)
    (h : ∀ k, 1 ≤ k → k ≤ n → statusOf b k = some JobStatus.Queued) :
    trailingQueued b n = n := by
  induction n with
  | zero => rfl
  | succ m ih =>
    have hm := ih (fun k h1 h2 => h k h1 (by omega))
    have hs := h (m + 1) (by omega) (le_refl _)
    simp only [statusOf, Option.map_eq_some'] at hs
    obtain ⟨r, hr, hq⟩ := hs
    simp [trailingQueued, hr, hq, hm]

theorem trailingQueued_one (b : Bucket JobRecord) (n : Nat) (hn : 1 ≤ n)
    (hlast : statusOf b n = some JobStatus.Queued)
    (hprev : 2 ≤ n → ∃ st, statusOf b (n - 1) = some st ∧ st ≠ JobStatus.Queued) :
    trailingQueued b n = 1 := by
  obtain ⟨m, rfl⟩ : ∃ m, n = m + 1 := ⟨n - 1, by omega⟩
  simp only [statusOf, Option.map_eq_some'] at hlast
  obtain ⟨r, hr, hq⟩ := hlast
  simp only [trailingQueued, hr, hq, if_true]
  cases m with
  | zero => rfl
  | succ j =>
    obtain ⟨st, hst, hne⟩ := hprev (by omega)
    simp only [Nat.add_sub_cancel, statusOf, Option.map_eq_some'] at hst
    obtain ⟨r', hr', hq'⟩ := hst
    have : ¬ r'.Status = JobStatus.Queued := by
      rw [hq']
      exact hne
    simp [trailingQueued, hr', this]

theorem NewJobQueue_current (b : Bucket JobRecord) (n : Nat)
    (hkeys : b.keys = List.range' 1 n) :
    (NewJobQueue b).current = (n : Int) - (trailingQueued b n : Int) + 1 := by
  have hlen : b.entries.length = n := by
    have := congrArg List.length hkeys
    simpa [Bucket.keys] using this
  have hscan := scanQueued_eq_trailingQueued b.entries b.sequence n hkeys
  simp only [NewJobQueue, Bucket.KeyN, hlen]
  rw [hscan]

/-- C1: for a job store whose keys are exactly 1..n, NewJobQueue sets the dispatch cursor to
n - Q + 1, Q being the number of contiguous trailing Queued jobs.  In particular the cursor is
1 when all jobs are Queued, n when jobs 1..n-1 are Succeeded or Failed and job n is Queued, and
n when job n-1 is Active and job n is Queued (Q = 1), so that an Active job is not dispatched
again. -/
theorem NewJobQueue_cursor (b : Bucket JobRecord) (n : Nat)
    (hkeys : b.keys = List.range' 1 n) :
    (NewJobQueue b).current = (n : Int) - (trailingQueued b n : Int) + 1
    ∧ ((∀ k, 1 ≤ k → k ≤ n → statusOf b k = some JobStatus.Queued) →
        (NewJobQueue b).current = 1)
    ∧ (1 ≤ n →
        (∀ k, 1 ≤ k → k < n →
          statusOf b k = some JobStatus.Succeeded ∨ statusOf b k = some JobStatus.Failed) →
        statusOf b n = some JobStatus.Queued →
        (NewJobQueue b).current = n)
    ∧ (2 ≤ n → statusOf b (n - 1) = some JobStatus.Active →
        statusOf b n = some JobStatus.Queued →
        trailingQueued b n = 1 ∧ (NewJobQueue b).current = n) := by
  have hcur := NewJobQueue_current b n hkeys
  refine ⟨hcur, ?_, ?_, ?_⟩
  · intro hall
    rw [hcur, trailingQueued_all b n hall]
    omega
  · intro hn hdone hlast
    have hone : trailingQueued b n = 1 := by
      apply trailingQueued_one b n hn hlast
      intro h2
      rcases hdone (n - 1) (by omega) (by omega) with h | h
      · exact ⟨_, h, by decide⟩
      · exact ⟨_, h, by decide⟩
    rw [hcur, hone]
    omega
  · intro h2 hact hlast
    have hone : trailingQueued b n = 1 :=
      trailingQueued_one b n (by omega) hlast (fun _ => ⟨_, hact, by decide⟩)
    refine ⟨hone, ?_⟩
    rw [hcur, hone]
    omega

theorem NewJobQueue_cursor_witness :
    sampleBucket.keys = List.range' 1 3
    ∧ (NewJobQueue sampleBucket).current
        = ((3 : Nat) : Int) - (trailingQueued sampleBucket 3 : Int) + 1 :=
  ⟨by decide, (NewJobQueue_cursor sampleBucket 3 (by decide)).1⟩

/-! ## Numbering of added jobs -/

theorem itob_natCast (k : Nat) : itob (k : Int) = k := by
  simp [itob]

theorem lookupKV_append_ne {V : Type} (key k : Nat) (v : V) (l : List (Nat × V))
    (h : key ≠ k) : lookupKV key (l ++ [(k, v)]) = lookupKV key l := by
  induction l with
  | nil => simp [lookupKV, Ne.symm h]
  | cons e t ih =>
    obtain ⟨k', w⟩ := e
    by_cases hk : k' = key
    · simp [lookupKV, hk]
    · simp [lookupKV, hk, ih]

theorem Put_after_last {V : Type} (b : Bucket V) (n : Nat) (v : V)
    (hkeys : b.keys = List.range' 1 n) :
    (b.Put (n + 1) v).entries = b.entries ++ [(n + 1, v)] := by
  have hlt : ∀ k ∈ b.entries.map Prod.fst, k < n + 1 := by
    intro k hk
    have : k ∈ List.range' 1 n := by
      rw [← hkeys]
      exact hk
    rw [mem_range'_one] at this
    omega
  have := insertKV_append_of_lt (n + 1) v b.entries [] hlt
  simpa [Bucket.Put, insertKV] using this

theorem AddJob_spec (queue : JobQueue) (n : Nat) (args : Option GoMap) (now : Time)
    (hkeys : queue.jobs.keys = List.range' 1 n) (hseq : queue.jobs.sequence = n) :
    (AddJob queue args now).1
        = { Number := ((n + 1 : Nat) : Int), Args := args, Status := JobStatus.Queued,
            Updated := now }
    ∧ (AddJob queue args now).2.jobs.entries
        = queue.jobs.entries ++
          [(n + 1, { Number := ((n + 1 : Nat) : Int), Args := args,
                     Status := JobStatus.Queued, Updated := now })]
    ∧ (AddJob queue args now).2.jobs.sequence = n + 1 := by
  have hk : (queue.jobs.NextSequence).2.keys = List.range' 1 n := by
    simpa [Bucket.NextSequence, Bucket.keys] using hkeys
  have hput := Put_after_last (queue.jobs.NextSequence).2 n
    { Number := ((n + 1 : Nat) : Int), Args := args, Status := JobStatus.Queued,
      Updated := now } hk
  refine ⟨?_, ?_, ?_⟩
  · simp [AddJob, Bucket.NextSequence, hseq]
  · simp only [AddJob, Bucket.NextSequence, hseq] at hput ⊢
    rw [itob_natCast]
    exact hput
  · simp [AddJob, Bucket.NextSequence, Bucket.Put, hseq]

theorem range'_one_succ (n : Nat) : List.range' 1 (n + 1) = List.range' 1 n ++ [n + 1] := by
  rw [List.range'_1_concat, Nat.add_comm]

/-- C2: on a store whose job keys are exactly 1..n with bucket sequence n, m successive AddJob
calls return jobs numbered n+1, ..., n+m; each is stored with status Queued, the Args given
and the time of its call; afterwards the keys are exactly 1..n+m and the sequence is n+m, the
earlier records being untouched.  The numbers are strictly increasing, hence unique. -/
theorem AddJobs_contiguous (queue : JobQueue) (n : Nat) (reqs : List (Option GoMap × Time))
    (hkeys : queue.jobs.keys = List.range' 1 n) (hseq : queue.jobs.sequence = n) :
    (AddJobs queue reqs).1.map JobRecord.Number
        = (List.range' (n + 1) reqs.length).map (fun k : Nat => (k : Int))
    ∧ (∀ i args now, reqs[i]? = some (args, now) →
        (AddJobs queue reqs).2.jobs.Get (n + 1 + i)
            = some { Number := ((n + 1 + i : Nat) : Int), Args := args,
                     Status := JobStatus.Queued, Updated := now }
        ∧ (AddJobs queue reqs).1[i]?
            = some { Number := ((n + 1 + i : Nat) : Int), Args := args,
                     Status := JobStatus.Queued, Updated := now })
    ∧ (AddJobs queue reqs).2.jobs.keys = List.range' 1 (n + reqs.length)
    ∧ (AddJobs queue reqs).2.jobs.sequence = n + reqs.length
    ∧ (∀ k, k ≤ n → (AddJobs queue reqs).2.jobs.Get k = queue.jobs.Get k)
    ∧ ((AddJobs queue reqs).1.map JobRecord.Number).Pairwise (fun a b => a < b) := by
  have main : ∀ (reqs : List (Option GoMap × Time)) (queue : JobQueue) (n : Nat),
      queue.jobs.keys = List.range' 1 n → queue.jobs.sequence = n →
      (AddJobs queue reqs).1.map JobRecord.Number
          = (List.range' (n + 1) reqs.length).map (fun k : Nat => (k : Int))
      ∧ (∀ i args now, reqs[i]? = some (args, now) →
          (AddJobs queue reqs).2.jobs.Get (n + 1 + i)
              = some { Number := ((n + 1 + i : Nat) : Int), Args := args,
                       Status := JobStatus.Queued, Updated := now }
          ∧ (AddJobs queue reqs).1[i]?
              = some { Number := ((n + 1 + i : Nat) : Int), Args := args,
                       Status := JobStatus.Queued, Updated := now })
      ∧ (AddJobs queue reqs).2.jobs.keys = List.range' 1 (n + reqs.length)
      ∧ (AddJobs queue reqs).2.jobs.sequence = n + reqs.length
      ∧ (∀ k, k ≤ n → (AddJobs queue reqs).2.jobs.Get k = queue.jobs.Get k) := by
    intro reqs
    induction reqs with
    | nil =>
      intro queue n hkeys hseq
      simp [AddJobs, hkeys, hseq]
    | cons req rest ih =>
      intro queue n hkeys hseq
      obtain ⟨args, now⟩ := req
      obtain ⟨h1, h2, h3⟩ := AddJob_spec queue n args now hkeys hseq
      have hkeys1 : (AddJob queue args now).2.jobs.keys = List.range' 1 (n + 1) := by
        rw [Bucket.keys, h2, List.map_append, range'_one_succ]
        simp only [List.map_cons, List.map_nil]
        rw [← hkeys, Bucket.keys]
      obtain ⟨i1, i2, i3, i4, i5⟩ := ih (AddJob queue args now).2 (n + 1) hkeys1 h3
      have hnot : n + 1 ∉ queue.jobs.entries.map Prod.fst := by
        have : n + 1 ∉ List.range' 1 n := by
          rw [mem_range'_one]
          omega
        rw [← hkeys] at this
        exact this
      refine ⟨?_, ?_, ?_, ?_, ?_⟩
      · simp only [AddJobs, List.map_cons, List.length_cons, i1, h1]
        rw [List.range'_succ]
        simp
      · intro i a t hi
        cases i with
        | zero =>
          simp only [List.getElem?_cons_zero, Option.some.injEq, Prod.mk.injEq] at hi
          obtain ⟨rfl, rfl⟩ := hi
          refine ⟨?_, ?_⟩
          · simp only [AddJobs, Nat.add_zero]
            rw [i5 (n + 1) (le_refl _), Bucket.Get, h2,
              lookupKV_append_of_not_mem _ _ _ hnot]
            simp [lookupKV]
          · simp [AddJobs, h1]
        | succ j =>
          simp only [List.getElem?_cons_succ] at hi
          obtain ⟨g1, g2⟩ := i2 j a t hi
          have e : n + 1 + (j + 1) = n + 1 + 1 + j := by omega
          refine ⟨?_, ?_⟩
          · simp only [AddJobs]
            rw [e]
            exact g1
          · simp only [AddJobs, List.getElem?_cons_succ]
            rw [e]
            exact g2
      · simp only [AddJobs, List.length_cons, i3]
        congr 1
        omega
      · simp only [AddJobs, List.length_cons, i4]
        omega
      · intro k hk
        simp only [AddJobs]
        rw [i5 k (by omega), Bucket.Get, h2, lookupKV_append_ne _ _ _ _ (by omega)]
        rfl
  obtain ⟨m1, m2, m3, m4, m5⟩ := main reqs queue n hkeys hseq
  refine ⟨m1, m2, m3, m4, m5, ?_⟩
  rw [m1]
  apply List.Pairwise.map (fun k : Nat => (k : Int)) (R := fun a b => a < b)
  · intro a b hab
    exact_mod_cast hab
  · exact List.pairwise_lt_range' (n + 1) reqs.length

theorem AddJobs_contiguous_witness :
    (NewJobQueue sampleBucket).jobs.keys = List.range' 1 3
    ∧ (NewJobQueue sampleBucket).jobs.sequence = 3
    ∧ ((AddJobs (NewJobQueue sampleBucket)
        [(some (Finmap.singleton "source" "/srv/app"), 8), (none, 9)]).1.map JobRecord.Number
      = (List.range' (3 + 1) 2).map (fun k : Nat => (k : Int)))
    ∧ (AddJobs (NewJobQueue sampleBucket)
        [(some (Finmap.singleton "source" "/srv/app"), 8), (none, 9)]).2.jobs.keys
      = List.range' 1 (3 + 2) :=
  ⟨by decide, by decide,
   (AddJobs_contiguous (NewJobQueue sampleBucket) 3
      [(some (Finmap.singleton "source" "/srv/app"), 8), (none, 9)]
      (by decide) (by decide)).1,
   (AddJobs_contiguous (NewJobQueue sampleBucket) 3
      [(some (Finmap.singleton "source" "/srv/app"), 8), (none, 9)]
      (by decide) (by decide)).2.2.1⟩

/-! ## Reading and writing the store -/

theorem lookupKV_insertKV {V : Type} (key key' : Nat) (v : V) (l : List (Nat × V)) :
    lookupKV key' (insertKV key v l) = if key' = key then some v else lookupKV key' l := by
  induction l with
  | nil =>
    by_cases h : key' = key
    · simp [insertKV, lookupKV, h]
    · simp [insertKV, lookupKV, h, Ne.symm h]
  | cons e t ih =>
    obtain ⟨k, w⟩ := e
    simp only [insertKV]
    by_cases h1 : key < k
    · simp only [h1, if_true, lookupKV]
      by_cases h : key' = key
      · simp [h]
      · simp [h, Ne.symm h]
    · by_cases h2 : key = k
      · subst h2
        simp only [lt_self_iff_false, if_false, if_true, lookupKV]
        by_cases h : key' = key
        · simp [h]
        · simp [h, Ne.symm h]
      · simp only [h1, h2, if_false, lookupKV, ih]
        by_cases h : key' = key
        · subst h
          simp [Ne.symm h2]
        · simp [h]

theorem Get_Put {V : Type} (b : Bucket V) (key key' : Nat) (v : V) :
    (b.Put key v).Get key' = if key' = key then some v else b.Get key' := by
  simp [Bucket.Get, Bucket.Put, lookupKV_insertKV]

theorem mem_insertKV {V : Type} (key : Nat) (v : V) (l : List (Nat × V)) (e : Nat × V)
    (h : e ∈ insertKV key v l) : e = (key, v) ∨ e ∈ l := by
  induction l with
  | nil => simpa [insertKV] using h
  | cons x t ih =>
    obtain ⟨k, w⟩ := x
    simp only [insertKV] at h
    by_cases h1 : key < k
    · simp only [h1, if_true, List.mem_cons] at h
      rcases h with h | h | h
      · exact Or.inl h
      · exact Or.inr (by simp [h])
      · exact Or.inr (by simp [h])
    · by_cases h2 : key = k
      · subst h2
        simp only [lt_self_iff_false, if_false, if_true, List.mem_cons] at h
        rcases h with h | h
        · exact Or.inl h
        · exact Or.inr (by simp [h])
      · simp only [h1, h2, if_false, List.mem_cons] at h
        rcases h with h | h
        · exact Or.inr (by simp [h])
        · rcases ih h with h | h
          · exact Or.inl h
          · exact Or.inr (by simp [h])

theorem keys_insertKV_of_mem {V : Type} (key : Nat) (v : V) (l : List (Nat × V))
    (hs : (l.map Prod.fst).Pairwise (fun a b => a < b)) (hm : key ∈ l.map Prod.fst) :
    (insertKV key v l).map Prod.fst = l.map Prod.fst := by
  induction l with
  | nil => simp at hm
  | cons x t ih =>
    obtain ⟨k, w⟩ := x
    simp only [List.map_cons, List.pairwise_cons] at hs
    simp only [List.map_cons, List.mem_cons] at hm
    simp only [insertKV]
    by_cases h2 : key = k
    · subst h2
      simp
    · have hmt : key ∈ t.map Prod.fst := by
        rcases hm with h | h
        · exact absurd h h2
        · exact h
      have hlt : k < key := hs.1 key hmt
      have h1 : ¬ key < k := by omega
      simp [h1, h2, ih hs.2 hmt]

theorem lookupKV_mem {V : Type} (key : Nat) (r : V) (l : List (Nat × V))
    (h : lookupKV key l = some r) : (key, r) ∈ l := by
  induction l with
  | nil => simp [lookupKV] at h
  | cons x t ih =>
    obtain ⟨k, w⟩ := x
    simp only [lookupKV] at h
    by_cases hk : k = key
    · simp only [hk, if_true, Option.some.injEq] at h
      simp [hk, h]
    · simp only [hk, if_false] at h
      simp [ih h]

theorem pairwise_range'_one (n : Nat) : (List.range' 1 n).Pairwise (fun a b => a < b) :=
  List.pairwise_lt_range' 1 n

theorem StoreOK_Get (b : Bucket JobRecord) (n k : Nat) (r : JobRecord) (h : StoreOK b n)
    (hg : b.Get k = some r) : r.Number = (k : Int) ∧ 1 ≤ k ∧ k ≤ n := by
  have hm := lookupKV_mem k r b.entries hg
  refine ⟨h.2.2 (k, r) hm, ?_⟩
  have : k ∈ List.range' 1 n := by
    rw [← h.1, Bucket.keys]
    exact List.mem_map_of_mem Prod.fst hm
  exact (mem_range'_one k n).1 this

theorem StoreOK_Put (b : Bucket JobRecord) (n k : Nat) (r v : JobRecord) (h : StoreOK b n)
    (hg : b.Get k = some r) (hv : v.Number = r.Number) : StoreOK (b.Put k v) n := by
  have hr := StoreOK_Get b n k r h hg
  have hm : k ∈ b.entries.map Prod.fst :=
    List.mem_map_of_mem Prod.fst (lookupKV_mem k r b.entries hg)
  have hs : (b.entries.map Prod.fst).Pairwise (fun a b => a < b) := by
    have := h.1
    rw [Bucket.keys] at this
    rw [this]
    exact pairwise_range'_one n
  refine ⟨?_, h.2.1, ?_⟩
  · simp only [Bucket.keys, Bucket.Put]
    rw [keys_insertKV_of_mem k v b.entries hs hm]
    exact h.1
  · intro e he
    rcases mem_insertKV k v b.entries e he with he | he
    · rw [he]
      simp only
      rw [hv, hr.1]
    · exact h.2.2 e he

theorem StoreOK_AddJob (queue : JobQueue) (n : Nat) (args : Option GoMap) (now : Time)
    (h : StoreOK queue.jobs n) : StoreOK (AddJob queue args now).2.jobs (n + 1) := by
  obtain ⟨_, h2, h3⟩ := AddJob_spec queue n args now h.1 h.2.1
  refine ⟨?_, h3, ?_⟩
  · rw [Bucket.keys, h2, List.map_append, range'_one_succ]
    simp only [List.map_cons, List.map_nil]
    rw [← h.1, Bucket.keys]
  · intro e he
    rw [h2, List.mem_append] at he
    rcases he with he | he
    · exact h.2.2 e he
    · simp only [List.mem_singleton] at he
      rw [he]

theorem Get_AddJob (queue : JobQueue) (n k : Nat) (args : Option GoMap) (now : Time)
    (h : StoreOK queue.jobs n) (hk : k ≠ n + 1) :
    (AddJob queue args now).2.jobs.Get k = queue.jobs.Get k := by
  obtain ⟨_, h2, _⟩ := AddJob_spec queue n args now h.1 h.2.1
  rw [Bucket.Get, h2, lookupKV_append_ne _ _ _ _ hk]
  rfl

/-! ## Decoding and encoding -/

theorem Unmarshal_Number (v : JobRecord) (job : Job) (heap : Heap) :
    (Unmarshal v job heap).1.Number = v.Number := by
  unfold Unmarshal
  split
  · rfl
  · split <;> rfl

theorem Unmarshal_Status (v : JobRecord) (job : Job) (heap : Heap) :
    (Unmarshal v job heap).1.Status = v.Status := by
  unfold Unmarshal
  split
  · rfl
  · split <;> rfl

theorem readWorkerUpdate_none (q : JobQueue) (h : q.jobs.Get (itob q.current) = none) :
    readWorkerUpdate q = q := by
  simp [readWorkerUpdate, h]

theorem readWorkerUpdate_some (q : JobQueue) (buf : JobRecord)
    (h : q.jobs.Get (itob q.current) = some buf) :
    readWorkerUpdate q =
      { q with
        jobs := q.jobs.Put (itob q.current)
          (Marshal { (Unmarshal buf q.job q.heap).1 with Status := JobStatus.Active }
            (Unmarshal buf q.job q.heap).2)
        heap := (Unmarshal buf q.job q.heap).2
        job := { (Unmarshal buf q.job q.heap).1 with Status := JobStatus.Active }
        sending := true } := by
  simp [readWorkerUpdate, h]

theorem FinishJob_none (q : JobQueue) (job : Job) (success : Bool)
    (h : q.jobs.Get (itob job.Number) = none) : FinishJob q job success = q := by
  simp [FinishJob, h]

theorem FinishJob_some (q : JobQueue) (job : Job) (success : Bool) (buf : JobRecord)
    (h : q.jobs.Get (itob job.Number) = some buf) :
    FinishJob q job success =
      { q with
        jobs := q.jobs.Put (itob job.Number)
          (Marshal { (Unmarshal buf job q.heap).1 with
                     Status := if !success then JobStatus.Failed else JobStatus.Succeeded }
            (Unmarshal buf job q.heap).2)
        heap := (Unmarshal buf job q.heap).2 } := by
  simp [FinishJob, h]

theorem itob_of_nonneg (v : Int) (h : 0 ≤ v) : ((itob v : Nat) : Int) = v := by
  simp [itob, h]

theorem itob_ne (a b : Int) (ha : 0 ≤ a) (hb : 0 ≤ b) (h : a ≠ b) : itob a ≠ itob b := by
  intro e
  apply h
  rw [← itob_of_nonneg a ha, ← itob_of_nonneg b hb, e]

theorem scanQueued_le (l : List (Nat × JobRecord)) :
    0 ≤ scanQueued 0 l ∧ scanQueued 0 l ≤ l.length := by
  induction l with
  | nil => simp [scanQueued]
  | cons e t ih =>
    obtain ⟨k, v⟩ := e
    by_cases h : v.Status = JobStatus.Queued
    · simp only [scanQueued, h, ne_eq, not_true_eq_false, if_false, List.length_cons]
      rw [scanQueued_acc]
      push_cast
      omega
    · simp only [scanQueued, h, ne_eq, not_false_eq_true, if_true, List.length_cons]
      push_cast
      exact ⟨trivial, by omega⟩

/-! ## The invariant of the queue -/

theorem Marshal_Number_with (j : Job) (st : JobStatus) (heap : Heap) :
    (Marshal { j with Status := st } heap).Number = j.Number := rfl

theorem Marshal_Status_with (j : Job) (st : JobStatus) (heap : Heap) :
    (Marshal { j with Status := st } heap).Status = st := rfl

theorem Marshal_Updated_with (j : Job) (st : JobStatus) (heap : Heap) :
    (Marshal { j with Status := st } heap).Updated = j.Updated := rfl

theorem Base_addJob (s : JobQueue) (args : Option GoMap) (now : Time) (h : Base s) :
    Base (AddJob s args now).2 := by
  obtain ⟨⟨n, hok⟩, hcur, hsend, hpend⟩ := h
  refine ⟨⟨n + 1, StoreOK_AddJob s n args now hok⟩, ?_, ?_, ?_⟩
  · simpa [AddJob] using hcur
  · intro hs
    have hs1 : s.sending = true := by simpa [AddJob] using hs
    obtain ⟨a, b, c⟩ := hsend hs1
    have hcurr : (AddJob s args now).2.current = s.current := by simp [AddJob]
    refine ⟨by simpa [AddJob] using a, by simpa [AddJob] using b, ?_⟩
    rw [hcurr]
    simp only [statusOf, Option.map_eq_some'] at c ⊢
    obtain ⟨r, hr, hst⟩ := c
    have hk := (StoreOK_Get s.jobs n _ r hok hr).2
    refine ⟨r, ?_, hst⟩
    rw [Get_AddJob s n _ args now hok (by omega)]
    exact hr
  · intro j hj
    have hj1 : j ∈ s.pending := by simpa [AddJob] using hj
    simpa [AddJob] using hpend j hj1

theorem Base_send (s : JobQueue) (h : Base s) (hs : s.sending = true) :
    Base (readWorkerSend s) := by
  obtain ⟨hok, hcur, hsend, hpend⟩ := h
  obtain ⟨a, _, _⟩ := hsend hs
  refine ⟨hok, ?_, ?_, ?_⟩
  · simp only [readWorkerSend]
    omega
  · intro h1
    simp [readWorkerSend] at h1
  · intro j hj
    simp only [readWorkerSend, List.mem_append, List.mem_singleton] at hj ⊢
    rcases hj with hj | hj
    · have := hpend j hj
      omega
    · rw [hj, a]
      omega

theorem Base_update (s : JobQueue) (h : Base s) : Base (readWorkerUpdate s) := by
  obtain ⟨⟨n, hok⟩, hcur, hsend, hpend⟩ := h
  cases hg : s.jobs.Get (itob s.current) with
  | none =>
    rw [readWorkerUpdate_none s hg]
    exact ⟨⟨n, hok⟩, hcur, hsend, hpend⟩
  | some buf =>
    rw [readWorkerUpdate_some s buf hg]
    have hnum := (StoreOK_Get s.jobs n _ buf hok hg).1
    refine ⟨⟨n, ?_⟩, hcur, ?_, hpend⟩
    · exact StoreOK_Put s.jobs n _ buf _ hok hg
        (by rw [Marshal_Number_with, Unmarshal_Number])
    · intro _
      refine ⟨?_, rfl, ?_⟩
      · show (Unmarshal buf s.job s.heap).1.Number = s.current
        rw [Unmarshal_Number, hnum, itob_of_nonneg _ hcur]
      · simp only [statusOf, Get_Put, if_true, Option.map_some', Marshal_Status_with]

theorem Base_FinishJob (q : JobQueue) (j : Job) (success : Bool) (h : Base q)
    (hj : 0 ≤ j.Number ∧ j.Number < q.current) : Base (FinishJob q j success) := by
  obtain ⟨⟨n, hok⟩, hcur, hsend, hpend⟩ := h
  cases hg : q.jobs.Get (itob j.Number) with
  | none =>
    rw [FinishJob_none q j success hg]
    exact ⟨⟨n, hok⟩, hcur, hsend, hpend⟩
  | some buf =>
    rw [FinishJob_some q j success buf hg]
    refine ⟨⟨n, ?_⟩, hcur, ?_, hpend⟩
    · exact StoreOK_Put q.jobs n _ buf _ hok hg
        (by rw [Marshal_Number_with, Unmarshal_Number])
    · intro hs
      obtain ⟨a, b, c⟩ := hsend hs
      refine ⟨a, b, ?_⟩
      have hne : itob q.current ≠ itob j.Number :=
        itob_ne _ _ hcur hj.1 (by omega)
      simp only [statusOf, Get_Put, hne, if_false]
      exact c

theorem step_finish_none (s : JobQueue) (i : Nat) (success : Bool)
    (hp : s.pending[i]? = none) : step s (Event.finish i success) = s := by
  simp [step, hp]

theorem step_finish_some (s : JobQueue) (i : Nat) (success : Bool) (j : Job)
    (hp : s.pending[i]? = some j) :
    step s (Event.finish i success)
      = FinishJob { s with pending := s.pending.eraseIdx i } j success := by
  simp [step, hp]

theorem Base_finish (s : JobQueue) (i : Nat) (success : Bool) (h : Base s) :
    Base (step s (Event.finish i success)) := by
  cases hp : s.pending[i]? with
  | none =>
    rw [step_finish_none s i success hp]
    exact h
  | some j =>
    rw [step_finish_some s i success j hp]
    obtain ⟨hok, hcur, hsend, hpend⟩ := h
    have hj := hpend j (List.getElem?_mem hp)
    refine Base_FinishJob { s with pending := s.pending.eraseIdx i } j success ?_ hj
    exact ⟨hok, hcur, hsend, fun x hx => hpend x (List.mem_of_mem_eraseIdx hx)⟩

theorem Base_reopen (b : Bucket JobRecord) (n : Nat) (h : StoreOK b n) :
    Base (NewJobQueue b) := by
  have hle := scanQueued_le b.entries.reverse
  rw [List.length_reverse] at hle
  refine ⟨⟨n, h⟩, ?_, ?_, ?_⟩
  · simp only [NewJobQueue, Bucket.KeyN]
    omega
  · intro hs
    simp [NewJobQueue] at hs
  · intro j hj
    simp [NewJobQueue] at hj

theorem step_dispatch_sending (s : JobQueue) (hs : s.sending = true) :
    step s Event.dispatch = readWorkerSend s := by
  simp [step, readWorker, hs]

theorem step_dispatch_idle (s : JobQueue) (hs : ¬ s.sending = true) :
    step s Event.dispatch = readWorkerUpdate s := by
  simp [step, readWorker, hs]

theorem Base_step (s : JobQueue) (e : Event) (h : Base s) : Base (step s e) := by
  cases e with
  | addJob args now => exact Base_addJob s args now h
  | dispatch =>
    simp only [step, readWorker]
    by_cases hs : s.sending = true
    · simp only [hs, if_true]
      exact Base_send s h hs
    · simp only [hs]
      exact Base_update s h
  | finish i success => exact Base_finish s i success h
  | reopen =>
    obtain ⟨⟨n, hok⟩, _⟩ := h
    exact Base_reopen s.jobs n hok

theorem Base_run (s : JobQueue) (events : List Event) (h : Base s) : Base (run s events) := by
  induction events generalizing s with
  | nil => exact h
  | cons e t ih => exact ih (step s e) (Base_step s e h)

/-! ## Dispatch order -/

theorem trailingQueued_le (b : Bucket JobRecord) (n : Nat) : trailingQueued b n ≤ n := by
  induction n with
  | zero => simp [trailingQueued]
  | succ m ih =>
    simp only [trailingQueued]
    split
    · split
      · omega
      · omega
    · omega

theorem trailingQueued_spec (b : Bucket JobRecord) (n k : Nat)
    (h1 : n - trailingQueued b n < k) (h2 : k ≤ n) :
    statusOf b k = some JobStatus.Queued := by
  induction n with
  | zero => omega
  | succ m ih =>
    have hle := trailingQueued_le b m
    simp only [trailingQueued] at h1
    cases hg : b.Get (m + 1) with
    | none =>
      simp only [hg] at h1
      omega
    | some r =>
      simp only [hg] at h1
      by_cases hq : r.Status = JobStatus.Queued
      · simp only [hq, if_true] at h1
        by_cases hk : k = m + 1
        · rw [hk]
          simp [statusOf, hg, hq]
        · exact ih (by omega) (by omega)
      · simp only [hq, if_false] at h1
        omega

theorem Forward_reopen (b : Bucket JobRecord) (n : Nat) (h : StoreOK b n) :
    Forward (NewJobQueue b) := by
  have hcur := NewJobQueue_current b n h.1
  have hle := trailingQueued_le b n
  refine ⟨?_, ?_, ?_⟩
  · intro k hk _ st hst
    have hjobs : (NewJobQueue b).jobs = b := rfl
    rw [hjobs] at hst
    simp only [statusOf, Option.map_eq_some'] at hst
    obtain ⟨r, hr, hrs⟩ := hst
    have hkn := (StoreOK_Get b n k r h hr).2
    have hq := trailingQueued_spec b n k (by rw [hcur] at hk; omega) hkn.2
    simp only [statusOf, hr, Option.map_some', Option.some.injEq] at hq
    rw [← hrs, hq]
  · intro j hj
    simp [NewJobQueue] at hj
  · simp [NewJobQueue]

theorem Forward_addJob (s : JobQueue) (args : Option GoMap) (now : Time)
    (hb : Base s) (hf : Forward s) : Forward (AddJob s args now).2 := by
  obtain ⟨⟨n, hok⟩, hcur, hsend, hpend⟩ := hb
  obtain ⟨f1, f2, f3⟩ := hf
  obtain ⟨_, a2, _⟩ := AddJob_spec s n args now hok.1 hok.2.1
  have hnot : n + 1 ∉ s.jobs.entries.map Prod.fst := by
    have : n + 1 ∉ List.range' 1 n := by
      rw [mem_range'_one]
      omega
    rw [← hok.1] at this
    exact this
  have hc : (AddJob s args now).2.current = s.current := by simp [AddJob]
  have hsd : (AddJob s args now).2.sending = s.sending := by simp [AddJob]
  have hp : (AddJob s args now).2.pending = s.pending := by simp [AddJob]
  refine ⟨?_, ?_, ?_⟩
  · intro k hk hne st hst
    rw [hc] at hk
    rw [hc, hsd] at hne
    by_cases hkn : k = n + 1
    · subst hkn
      simp only [statusOf, Bucket.Get, a2, lookupKV_append_of_not_mem _ _ _ hnot, lookupKV,
        if_true, Option.map_some', Option.some.injEq] at hst
      exact hst.symm
    · simp only [statusOf] at hst
      rw [Get_AddJob s n k args now hok hkn] at hst
      exact f1 k hk hne st hst
  · intro j hj
    rw [hp] at hj
    have := f2 j hj
    simp only [statusOf, Option.map_eq_some'] at this ⊢
    obtain ⟨r, hr, hrs⟩ := this
    have hk := (StoreOK_Get s.jobs n _ r hok hr).2
    refine ⟨r, ?_, hrs⟩
    rw [Get_AddJob s n _ args now hok (by omega)]
    exact hr
  · rw [hp]
    exact f3

theorem Forward_send (s : JobQueue) (hb : Base s) (hf : Forward s) (hs : s.sending = true) :
    Forward (readWorkerSend s) := by
  obtain ⟨_, hcur, hsend, hpend⟩ := hb
  obtain ⟨f1, f2, f3⟩ := hf
  obtain ⟨a, _, c⟩ := hsend hs
  refine ⟨?_, ?_, ?_⟩
  · intro k hk _ st hst
    simp only [readWorkerSend] at hk hst
    exact f1 k (by omega) (fun _ => by omega) st hst
  · intro j hj
    simp only [readWorkerSend, List.mem_append, List.mem_singleton] at hj ⊢
    rcases hj with hj | hj
    · exact f2 j hj
    · rw [hj, a]
      exact c
  · simp only [readWorkerSend]
    rw [List.pairwise_append]
    refine ⟨f3, by simp, ?_⟩
    intro x hx y hy
    rw [List.mem_singleton] at hy
    rw [hy, a]
    exact (hpend x hx).2

theorem Forward_update (s : JobQueue) (hb : Base s) (hf : Forward s)
    (hs : s.sending = false) : Forward (readWorkerUpdate s) := by
  obtain ⟨⟨n, hok⟩, hcur, hsend, hpend⟩ := hb
  obtain ⟨f1, f2, f3⟩ := hf
  cases hg : s.jobs.Get (itob s.current) with
  | none =>
    rw [readWorkerUpdate_none s hg]
    exact ⟨f1, f2, f3⟩
  | some buf =>
    rw [readWorkerUpdate_some s buf hg]
    refine ⟨?_, ?_, f3⟩
    · intro k hk hne st hst
      have hne1 : (k : Int) ≠ s.current := hne rfl
      have hkk : k ≠ itob s.current := by
        intro e
        apply hne1
        rw [e, itob_of_nonneg _ hcur]
      simp only [statusOf, Get_Put, hkk, if_false] at hst
      exact f1 k hk (fun h => by rw [hs] at h; exact absurd h (by decide)) st hst
    · intro j hj
      have hjb := hpend j hj
      have hne : itob j.Number ≠ itob s.current := itob_ne _ _ hjb.1 hcur (by omega)
      simp only [statusOf, Get_Put, hne, if_false]
      exact f2 j hj

theorem pairwise_eraseIdx_ne (l : List Job) (i : Nat) (j x : Job)
    (hp : l.Pairwise (fun a b => a.Number < b.Number)) (hi : l[i]? = some j)
    (hx : x ∈ l.eraseIdx i) : x.Number ≠ j.Number := by
  induction l generalizing i with
  | nil => simp at hi
  | cons y t ih =>
    rw [List.pairwise_cons] at hp
    cases i with
    | zero =>
      simp only [List.getElem?_cons_zero, Option.some.injEq] at hi
      simp only [List.eraseIdx_cons_zero] at hx
      have := hp.1 x hx
      rw [hi] at this
      omega
    | succ i' =>
      simp only [List.getElem?_cons_succ] at hi
      simp only [List.eraseIdx_cons_succ, List.mem_cons] at hx
      rcases hx with hx | hx
      · have := hp.1 j (List.getElem?_mem hi)
        rw [hx]
        omega
      · exact ih i' hp.2 hi hx

theorem Forward_FinishJob (s : JobQueue) (i : Nat) (j : Job) (success : Bool)
    (hb : Base s) (hf : Forward s) (hi : s.pending[i]? = some j) :
    Forward (FinishJob { s with pending := s.pending.eraseIdx i } j success) := by
  obtain ⟨⟨n, hok⟩, hcur, hsend, hpend⟩ := hb
  obtain ⟨f1, f2, f3⟩ := hf
  have hjb := hpend j (List.getElem?_mem hi)
  have hsub : (s.pending.eraseIdx i).Pairwise (fun a b => a.Number < b.Number) :=
    f3.sublist (List.eraseIdx_sublist s.pending i)
  cases hg : s.jobs.Get (itob j.Number) with
  | none =>
    rw [FinishJob_none { s with pending := s.pending.eraseIdx i } j success hg]
    exact ⟨f1, fun x hx => f2 x (List.mem_of_mem_eraseIdx hx), hsub⟩
  | some buf =>
    rw [FinishJob_some { s with pending := s.pending.eraseIdx i } j success buf hg]
    refine ⟨?_, ?_, hsub⟩
    · intro k hk hne st hst
      have hk1 : s.current ≤ (k : Int) := hk
      have hkk : k ≠ itob j.Number := by
        intro e
        have := itob_of_nonneg _ hjb.1
        rw [← e] at this
        omega
      simp only [statusOf, Get_Put, hkk, if_false] at hst
      exact f1 k hk1 hne st hst
    · intro x hx
      have hx1 : x ∈ s.pending.eraseIdx i := hx
      have hxb := hpend x (List.mem_of_mem_eraseIdx hx1)
      have hne : itob x.Number ≠ itob j.Number :=
        itob_ne _ _ hxb.1 hjb.1 (pairwise_eraseIdx_ne s.pending i j x f3 hi hx1)
      simp only [statusOf, Get_Put, hne, if_false]
      exact f2 x (List.mem_of_mem_eraseIdx hx1)

theorem Forward_step (s : JobQueue) (e : Event) (hb : Base s) (hf : Forward s) :
    Forward (step s e) := by
  cases e with
  | addJob args now => exact Forward_addJob s args now hb hf
  | dispatch =>
    simp only [step, readWorker]
    by_cases hs : s.sending = true
    · simp only [hs, if_true]
      exact Forward_send s hb hf hs
    · simp only [hs]
      exact Forward_update s hb hf (by simpa using hs)
  | finish i success =>
    cases hp : s.pending[i]? with
    | none =>
      rw [step_finish_none s i success hp]
      exact hf
    | some j =>
      rw [step_finish_some s i success j hp]
      exact Forward_FinishJob s i j success hb hf hp
  | reopen =>
    obtain ⟨⟨n, hok⟩, _⟩ := hb
    exact Forward_reopen s.jobs n hok

theorem Advances_refl (a : JobStatus) : Advances a a :=
  ⟨le_refl _, fun _ => rfl⟩

theorem Advances_trans (a b c : JobStatus) (h1 : Advances a b) (h2 : Advances b c) :
    Advances a c := by
  refine ⟨le_trans h1.1 h2.1, ?_⟩
  intro h
  have hb := h1.2 h
  rw [hb] at h2
  exact h2.2 h

theorem step_advances (s : JobQueue) (e : Event) (hb : Base s) (hf : Forward s)
    (k : Nat) (st : JobStatus) (h : statusOf s.jobs k = some st) :
    ∃ st', statusOf (step s e).jobs k = some st' ∧ Advances st st' := by
  obtain ⟨⟨n, hok⟩, hcur, hsend, hpend⟩ := hb
  obtain ⟨f1, f2, f3⟩ := hf
  cases e with
  | addJob args now =>
    refine ⟨st, ?_, Advances_refl st⟩
    simp only [statusOf, Option.map_eq_some'] at h
    obtain ⟨r, hr, hrs⟩ := h
    have hk := (StoreOK_Get s.jobs n k r hok hr).2
    simp only [step, statusOf]
    rw [Get_AddJob s n k args now hok (by omega), hr]
    simp [hrs]
  | dispatch =>
    by_cases hs : s.sending = true
    · rw [step_dispatch_sending s hs]
      exact ⟨st, h, Advances_refl st⟩
    · rw [step_dispatch_idle s hs]
      cases hg : s.jobs.Get (itob s.current) with
      | none =>
        rw [readWorkerUpdate_none s hg]
        exact ⟨st, h, Advances_refl st⟩
      | some buf =>
        rw [readWorkerUpdate_some s buf hg]
        by_cases hk : k = itob s.current
        · have hq : st = JobStatus.Queued := by
            apply f1 k _ (fun h1 => absurd h1 hs) st h
            rw [hk, itob_of_nonneg _ hcur]
          refine ⟨JobStatus.Active, ?_, ?_⟩
          · simp only [statusOf, Get_Put, hk, if_true, Option.map_some',
              Marshal_Status_with]
          · rw [hq]
            decide
        · refine ⟨st, ?_, Advances_refl st⟩
          simp only [statusOf, Get_Put, hk, if_false]
          exact h
  | finish i success =>
    cases hp : s.pending[i]? with
    | none =>
      rw [step_finish_none s i success hp]
      exact ⟨st, h, Advances_refl st⟩
    | some j =>
      rw [step_finish_some s i success j hp]
      cases hg : s.jobs.Get (itob j.Number) with
      | none =>
        rw [FinishJob_none { s with pending := s.pending.eraseIdx i } j success hg]
        exact ⟨st, h, Advances_refl st⟩
      | some buf =>
        rw [FinishJob_some { s with pending := s.pending.eraseIdx i } j success buf hg]
        by_cases hk : k = itob j.Number
        · have ha := f2 j (List.getElem?_mem hp)
          rw [← hk, h] at ha
          have hst : st = JobStatus.Active := by simpa using ha
          refine ⟨if !success then JobStatus.Failed else JobStatus.Succeeded, ?_, ?_⟩
          · simp only [statusOf, Get_Put, hk, if_true, Option.map_some',
              Marshal_Status_with]
          · rw [hst]
            cases success <;> decide
        · refine ⟨st, ?_, Advances_refl st⟩
          simp only [statusOf, Get_Put, hk, if_false]
          exact h
  | reopen => exact ⟨st, h, Advances_refl st⟩

theorem run_advances (s : JobQueue) (events : List Event) (hb : Base s) (hf : Forward s)
    (k : Nat) (st : JobStatus) (h : statusOf s.jobs k = some st) :
    ∃ st', statusOf (run s events).jobs k = some st' ∧ Advances st st' := by
  induction events generalizing s st with
  | nil => exact ⟨st, h, Advances_refl st⟩
  | cons e rest ih =>
    obtain ⟨st1, h1, a1⟩ := step_advances s e hb hf k st h
    obtain ⟨st2, h2, a2⟩ :=
      ih (step s e) (Base_step s e hb) (Forward_step s e hb hf) st1 h1
    exact ⟨st2, h2, Advances_trans st st1 st2 a1 a2⟩

theorem Forward_run (s : JobQueue) (events : List Event) (hb : Base s) (hf : Forward s) :
    Forward (run s events) := by
  induction events generalizing s with
  | nil => exact hf
  | cons e rest ih => exact ih (step s e) (Base_step s e hb) (Forward_step s e hb hf)

theorem run_append (s : JobQueue) (a b : List Event) :
    run s (a ++ b) = run (run s a) b := by
  simp [run, List.foldl_append]

/-- C6: in every execution that opens a store written by AddJob and then interleaves AddJob
calls, moves of readWorker, one FinishJob transaction per job sent, and ends of the process
followed by recovery through NewJobQueue, the stored status of a job only moves forward along
Queued, Active, then Succeeded or Failed: a job stays stored, a job that has left Queued is
never Queued again, and a job that is Succeeded or Failed keeps that status, so it is never set
back to Active. -/
theorem status_only_forward (b : Bucket JobRecord) (n : Nat) (before after : List Event)
    (k : Nat) (st : JobStatus) (hok : StoreOK b n)
    (h : statusOf (run (NewJobQueue b) before).jobs k = some st) :
    ∃ st', statusOf (run (NewJobQueue b) (before ++ after)).jobs k = some st'
      ∧ st.stage ≤ st'.stage
      ∧ (st ≠ JobStatus.Queued → st' ≠ JobStatus.Queued)
      ∧ (st = JobStatus.Succeeded ∨ st = JobStatus.Failed → st' = st) := by
  have hb := Base_run (NewJobQueue b) before (Base_reopen b n hok)
  have hf := Forward_run (NewJobQueue b) before (Base_reopen b n hok) (Forward_reopen b n hok)
  obtain ⟨st', h1, h2, h3⟩ := run_advances (run (NewJobQueue b) before) after hb hf k st h
  rw [← run_append] at h1
  refine ⟨st', h1, h2, ?_, ?_⟩
  · intro hne hq
    rw [hq] at h2
    apply hne
    cases st <;> simp [JobStatus.stage] at h2 ⊢
  · intro hterm
    apply h3
    rcases hterm with e | e <;> rw [e] <;> rfl

theorem status_only_forward_witness :
    StoreOK sampleBucket 3
    ∧ statusOf (run (NewJobQueue sampleBucket) [Event.dispatch, Event.dispatch]).jobs 3
        = some JobStatus.Active
    ∧ ∃ st, statusOf (run (NewJobQueue sampleBucket)
          ([Event.dispatch, Event.dispatch] ++ [Event.finish 0 false, Event.reopen])).jobs 3
        = some st
      ∧ JobStatus.Active.stage ≤ st.stage
      ∧ (JobStatus.Active ≠ JobStatus.Queued → st ≠ JobStatus.Queued)
      ∧ (JobStatus.Active = JobStatus.Succeeded ∨ JobStatus.Active = JobStatus.Failed →
          st = JobStatus.Active) :=
  ⟨by decide, by decide,
   status_only_forward sampleBucket 3 [Event.dispatch, Event.dispatch]
     [Event.finish 0 false, Event.reopen] 3 JobStatus.Active (by decide) (by decide)⟩

/-! ## Log round trip -/

theorem block_keys (a : Nat) (buffer : List String) :
    (block a buffer).map Prod.fst = List.range' a buffer.length := by
  unfold block
  rw [List.map_fst_zip]
  simp

theorem block_values (a : Nat) (buffer : List String) :
    (block a buffer).map Prod.snd = buffer := by
  unfold block
  rw [List.map_snd_zip]
  simp

theorem block_cons (a : Nat) (v : String) (vs : List String) :
    block a (v :: vs) = (a, v) :: block (a + 1) vs := by
  simp [block, List.range'_succ]

theorem putBuffer_block (vs : List String) (jb : Bucket String) (id i : Nat)
    (pre old : List (Nat × String)) (hent : jb.entries = pre ++ old)
    (hpre : ∀ k ∈ pre.map Prod.fst, k < id + i)
    (hold : old.map Prod.fst = List.range' (id + i) old.length)
    (hlen : old.length ≤ vs.length) :
    (putBuffer jb (id : Int) i vs).entries = pre ++ block (id + i) vs
    ∧ (putBuffer jb (id : Int) i vs).sequence = jb.sequence := by
  induction vs generalizing jb i pre old with
  | nil =>
    have : old = [] := by
      cases old with
      | nil => rfl
      | cons _ _ => simp at hlen
    subst this
    simp [putBuffer, hent, block]
  | cons v vs ih =>
    have hkey : itob ((id : Int) + (i : Int)) = id + i := by
      have : ((id : Int) + (i : Int)) = ((id + i : Nat) : Int) := by push_cast; rfl
      rw [this, itob_natCast]
    have hput : (jb.Put (id + i) v).entries = (pre ++ [(id + i, v)]) ++ old.tail := by
      simp only [Bucket.Put, hent]
      rw [insertKV_append_of_lt _ _ _ _ hpre]
      cases old with
      | nil => simp [insertKV]
      | cons e t =>
        obtain ⟨k, w⟩ := e
        simp only [List.map_cons, List.length_cons, List.range'_succ, List.cons.injEq] at hold
        have hk : k = id + i := hold.1
        subst hk
        simp [insertKV]
    have hpre1 : ∀ k ∈ (pre ++ [(id + i, v)]).map Prod.fst, k < id + (i + 1) := by
      intro k hk
      simp only [List.map_append, List.map_cons, List.map_nil, List.mem_append,
        List.mem_singleton] at hk
      rcases hk with hk | hk
      · have := hpre k hk
        omega
      · omega
    have hold1 : old.tail.map Prod.fst = List.range' (id + (i + 1)) old.tail.length := by
      cases old with
      | nil => simp
      | cons e t =>
        simp only [List.map_cons, List.length_cons, List.range'_succ, List.cons.injEq] at hold
        simpa [Nat.add_assoc] using hold.2
    have hlen1 : old.tail.length ≤ vs.length := by
      cases old with
      | nil => simp
      | cons e t =>
        simp only [List.length_cons] at hlen
        simp only [List.tail_cons]
        omega
    obtain ⟨h1, h2⟩ := ih (jb.Put (id + i) v) (i + 1) (pre ++ [(id + i, v)]) old.tail
      hput hpre1 hold1 hlen1
    simp only [putBuffer, hkey]
    refine ⟨?_, ?_⟩
    · rw [h1, block_cons, List.append_assoc]
      simp [Nat.add_assoc]
    · rw [h2]
      rfl

theorem pad_succ (g : Nat) : pad (g + 1) = pad g ++ [(g + 1, "")] := by
  simp [pad, range'_one_succ]

theorem pad_keys_lt (g k : Nat) (h : k ∈ (pad g).map Prod.fst) : k < g + 1 := by
  simp only [pad, List.map_map, List.mem_map, Function.comp] at h
  obtain ⟨x, hx, rfl⟩ := h
  have := (mem_range'_one x g).1 hx
  omega

theorem LogInv_flush (f : Nat) (jb : Bucket String) (buffer window : List String)
    (h : LogInv f jb buffer) : LogInv (f + 1) (flush jb (buffer ++ window)) (buffer ++ window) := by
  obtain ⟨hseq, ⟨rest, hbuf⟩, h0, h1⟩ := h
  have hnext : (jb.NextSequence).1 = f + 1 := by simp [Bucket.NextSequence, hseq]
  have hent : (jb.NextSequence).2.entries = jb.entries := rfl
  have hs : (jb.NextSequence).2.sequence = f + 1 := by simp [Bucket.NextSequence, hseq]
  cases f with
  | zero =>
    have he := h0 rfl
    obtain ⟨p1, p2⟩ := putBuffer_block (buffer ++ window) (jb.NextSequence).2 1 0 [] []
      (by rw [hent, he]; rfl) (by simp) (by simp) (by simp)
    refine ⟨?_, ⟨rest ++ window, by rw [hbuf]; rfl⟩, by omega, ?_⟩
    · simp only [flush, hnext]
      rw [p2, hs]
    · intro _
      simp only [flush, hnext]
      rw [p1]
      simp [pad]
  | succ g =>
    have he := h1 (by omega)
    simp only [Nat.add_sub_cancel] at he
    have hsplit : jb.entries = (pad g ++ [(g + 1, "")]) ++ block (g + 2) rest := by
      rw [he, hbuf, block_cons, List.append_assoc]
      rfl
    obtain ⟨p1, p2⟩ := putBuffer_block (buffer ++ window) (jb.NextSequence).2 (g + 2) 0
      (pad g ++ [(g + 1, "")]) (block (g + 2) rest)
      (by rw [hent, hsplit])
      (by
        intro k hk
        rw [← pad_succ] at hk
        have := pad_keys_lt (g + 1) k hk
        omega)
      (by
        rw [block_keys]
        simp [block])
      (by
        simp only [block, List.length_zip, List.length_range', min_self, hbuf,
          List.cons_append, List.length_cons, List.length_append]
        omega)
    refine ⟨?_, ⟨rest ++ window, by rw [hbuf]; rfl⟩, by omega, ?_⟩
    · simp only [flush, hnext]
      rw [p2, hs]
    · intro _
      simp only [flush, hnext]
      rw [p1, Nat.add_sub_cancel, pad_succ]

theorem dbWorkerLoop_inv (windows : List (List String)) (f : Nat) (jb : Bucket String)
    (buffer : List String) (h : LogInv f jb buffer) :
    (dbWorkerLoop jb buffer windows).2 = buffer ++ windows.flatten
    ∧ LogInv (f + windows.length) (dbWorkerLoop jb buffer windows).1
        (dbWorkerLoop jb buffer windows).2 := by
  induction windows generalizing f jb buffer with
  | nil => simpa [dbWorkerLoop] using h
  | cons w rest ih =>
    obtain ⟨i1, i2⟩ := ih (f + 1) (flush jb (buffer ++ w)) (buffer ++ w)
      (LogInv_flush f jb buffer w h)
    simp only [dbWorkerLoop, List.flatten_cons, List.length_cons]
    refine ⟨?_, ?_⟩
    · rw [i1, List.append_assoc]
    · have e : f + (rest.length + 1) = f + 1 + rest.length := by omega
      rw [e]
      exact i2

theorem join_replicate_empty (n : Nat) (l : List String) :
    String.join (List.replicate n "" ++ l) = String.join l := by
  rw [String.join_eq, String.join_eq]
  simp

theorem pad_values (g : Nat) : (pad g).map Prod.snd = List.replicate g "" := by
  induction g with
  | zero => rfl
  | succ m ih =>
    rw [pad_succ, List.map_append, ih, List.replicate_succ']
    rfl

theorem dbWorker_values (ticks : List (List String)) (last : List String) :
    ∃ g, (dbWorker Bucket.empty ticks last).entries.map Prod.snd
      = List.replicate g "" ++ (List.replicate 64 "" ++ (ticks.flatten ++ last)) := by
  have h0 : LogInv 0 (Bucket.empty : Bucket String) (List.replicate 64 "") :=
    ⟨rfl, ⟨List.replicate 63 "", rfl⟩, fun _ => rfl, fun h => absurd h (by omega)⟩
  obtain ⟨h1, _, _, _, h4⟩ := dbWorkerLoop_inv (ticks ++ [last]) 0 Bucket.empty _ h0
  have hent := h4 (by simp)
  refine ⟨0 + (ticks ++ [last]).length - 1, ?_⟩
  unfold dbWorker
  rw [hent, List.map_append, pad_values, block_values, h1]
  simp

theorem dbWorker_join (ticks : List (List String)) (last : List String) :
    String.join ((dbWorker Bucket.empty ticks last).entries.map Prod.snd)
      = String.join (ticks.flatten ++ last) := by
  obtain ⟨g, hg⟩ := dbWorker_values ticks last
  rw [hg, join_replicate_empty, join_replicate_empty]

theorem logBucket_setNested (name : String) (jb : Bucket String)
    (nested : List (String × Bucket String)) :
    logBucket (some (setNested name jb nested)) name = some jb := by
  induction nested with
  | nil => simp [logBucket, setNested]
  | cons e t ih =>
    obtain ⟨k, b⟩ := e
    by_cases hk : k = name
    · simp [logBucket, setNested, hk]
    · simp only [logBucket, setNested, hk, if_false] at ih ⊢
      simp only [List.find?_cons, hk, decide_False]
      exact ih

theorem writeLogs_bucket (logs : LogStore) (name : String) (ticks : List (List String))
    (last : List String) (hfresh : logBucket logs name = none) :
    logBucket (writeLogs logs name ticks last) name
      = some (dbWorker Bucket.empty ticks last) := by
  have hopen : NewDbWriter logs name = some (setNested name Bucket.empty (logs.getD [])) := by
    simp [NewDbWriter, hfresh]
  simp only [writeLogs, hopen, logBucket_setNested]

theorem Marshal_Unmarshal_fresh (v : JobRecord) :
    Marshal (Unmarshal v Job.zero []).1 (Unmarshal v Job.zero []).2 = v := by
  obtain ⟨num, args, st, upd⟩ := v
  cases args with
  | none => simp [Unmarshal, Marshal]
  | some obj => simp [Unmarshal, Marshal, Job.zero, Heap.read]

/-- C4: whatever chunks are written to the DbWriter of a job and however they fall into flush
windows, windows without a chunk included, after the last flush respondLogs answers for that
job with the stored job and with log records whose concatenation, in ascending key order, is
the concatenation of the chunks in the order they were written. -/
theorem logs_round_trip (db : DB) (args : Option GoMap) (number : Int) (rawJob : JobRecord)
    (ticks : List (List String)) (last : List String)
    (hjob : Atoi ((argLookup args "job").getD "") = (number, none))
    (hget : db.jobs.Get (itob number) = some rawJob)
    (hfresh : logBucket db.logs (jobBucketName number) = none) :
    ∃ logs,
      respondLogs args
          { db with logs := writeLogs db.logs (jobBucketName number) ticks last }
        = Outcome.ok (Response.logs rawJob logs)
      ∧ String.join logs = String.join (ticks.flatten ++ last) := by
  refine ⟨(dbWorker Bucket.empty ticks last).entries.map Prod.snd, ?_,
    dbWorker_join ticks last⟩
  simp only [respondLogs, hjob, hget, writeLogs_bucket _ _ ticks last hfresh,
    Marshal_Unmarshal_fresh]

theorem logs_round_trip_witness :
    Atoi ((argLookup (some (Finmap.singleton "job" "2")) "job").getD "") = (2, none)
    ∧ twoJobs.Get (itob 2)
        = some { Number := 2, Args := some (Finmap.singleton "source" "/srv/b"),
                 Status := JobStatus.Queued, Updated := 11 }
    ∧ ∃ logs,
        respondLogs (some (Finmap.singleton "job" "2"))
            { jobs := twoJobs
              logs := writeLogs none (jobBucketName 2) [["a"], []] ["b", "c"] }
          = Outcome.ok (Response.logs
              { Number := 2, Args := some (Finmap.singleton "source" "/srv/b"),
                Status := JobStatus.Queued, Updated := 11 } logs)
        ∧ String.join logs = String.join ([["a"], []].flatten ++ ["b", "c"]) :=
  ⟨by decide, by decide,
   logs_round_trip { jobs := twoJobs, logs := none } (some (Finmap.singleton "job" "2")) 2
     { Number := 2, Args := some (Finmap.singleton "source" "/srv/b"),
       Status := JobStatus.Queued, Updated := 11 }
     [["a"], []] ["b", "c"] (by decide) (by decide) (by decide)⟩

/-! ## Restart -/

/-- C7: for a job N stored in a store written by AddJob, respondRestart with job=N answers
with a new job whose Number is the next sequence value, strictly greater than N, whose Args
are the stored Args of job N, and which is stored as Queued under its Number; the record of
job N and every other record are left as they were, so Number N is not reused. -/
theorem respondRestart_new_job (queue : JobQueue) (n N : Nat) (args : Option GoMap)
    (now : Time) (rawJob : JobRecord)
    (hkeys : queue.jobs.keys = List.range' 1 n) (hseq : queue.jobs.sequence = n)
    (hjob : (Atoi ((argLookup args "job").getD "")).1 = (N : Int))
    (hget : queue.jobs.Get N = some rawJob) :
    ∃ job,
      (respondRestart args queue now).1 = Outcome.ok (Response.deploy job)
      ∧ job.Number = ((n + 1 : Nat) : Int)
      ∧ (N : Int) < job.Number
      ∧ job.Args = rawJob.Args
      ∧ job.Status = JobStatus.Queued
      ∧ (respondRestart args queue now).2.jobs.Get (n + 1) = some job
      ∧ (respondRestart args queue now).2.jobs.Get N = some rawJob
      ∧ (∀ k, k ≤ n → (respondRestart args queue now).2.jobs.Get k = queue.jobs.Get k)
      ∧ (respondRestart args queue now).2.jobs.keys = List.range' 1 (n + 1) := by
  have hN : N ∈ List.range' 1 n := by
    rw [← hkeys, Bucket.keys]
    exact List.mem_map_of_mem Prod.fst (lookupKV_mem N rawJob queue.jobs.entries hget)
  rw [mem_range'_one] at hN
  have hres : respondRestart args queue now
      = (Outcome.ok (Response.deploy (AddJob queue rawJob.Args now).1),
         (AddJob queue rawJob.Args now).2) := by
    simp only [respondRestart, hjob, itob_natCast, hget, Marshal_Unmarshal_fresh]
  obtain ⟨a1, a2, _⟩ := AddJob_spec queue n rawJob.Args now hkeys hseq
  have hnot : n + 1 ∉ queue.jobs.entries.map Prod.fst := by
    have : n + 1 ∉ List.range' 1 n := by
      rw [mem_range'_one]
      omega
    rw [← hkeys] at this
    exact this
  have hframe : ∀ k, k ≤ n →
      (AddJob queue rawJob.Args now).2.jobs.Get k = queue.jobs.Get k := by
    intro k hk
    rw [Bucket.Get, a2, lookupKV_append_ne _ _ _ _ (by omega)]
    rfl
  refine ⟨(AddJob queue rawJob.Args now).1, ?_, ?_, ?_, ?_, ?_, ?_, ?_, ?_, ?_⟩
  · rw [hres]
  · rw [a1]
  · rw [a1]
    simp only
    omega
  · rw [a1]
  · rw [a1]
  · rw [hres]
    simp only
    rw [Bucket.Get, a2, lookupKV_append_of_not_mem _ _ _ hnot, a1]
    simp [lookupKV]
  · rw [hres]
    simp only
    rw [hframe N hN.2]
    exact hget
  · intro k hk
    rw [hres]
    exact hframe k hk
  · rw [hres]
    simp only
    rw [Bucket.keys, a2, List.map_append, range'_one_succ]
    simp only [List.map_cons, List.map_nil]
    rw [← hkeys, Bucket.keys]

theorem respondRestart_new_job_witness :
    ∃ job,
      (respondRestart (some (Finmap.singleton "job" "1")) (NewJobQueue twoJobs) 12).1
        = Outcome.ok (Response.deploy job)
      ∧ job.Number = ((2 + 1 : Nat) : Int)
      ∧ ((1 : Nat) : Int) < job.Number
      ∧ job.Args = some (Finmap.singleton "source" "/srv/a") := by
  obtain ⟨job, h1, h2, h3, h4, _⟩ :=
    respondRestart_new_job (NewJobQueue twoJobs) 2 1 (some (Finmap.singleton "job" "1")) 12
      { Number := 1, Args := some (Finmap.singleton "source" "/srv/a"),
        Status := JobStatus.Succeeded, Updated := 10 }
      (by decide) (by decide) (by decide) (by decide)
  exact ⟨job, h1, h2, h3, h4⟩

/-! ## Protocol errors in the server loop -/

theorem Atoi_error (s : String) (v : Int) (e : String) (h : Atoi s = (v, some e)) :
    e = "strconv.Atoi: invalid syntax" ∨ e = "strconv.Atoi: value out of range" := by
  unfold Atoi at h
  simp only at h
  split_ifs at h <;> try split at h
  all_goals try split_ifs at h
  all_goals simp only [Prod.mk.injEq, Option.some.injEq, reduceCtorEq, and_false] at h
  all_goals first
    | exact Or.inl h.2.symm
    | exact Or.inr h.2.symm

theorem respondRestart_error (args : Option GoMap) (queue : JobQueue) (now : Time)
    (msg : String) (h : (respondRestart args queue now).1 = Outcome.error msg) :
    msg = unexpectedEnd := by
  unfold respondRestart at h
  simp only at h
  split at h
  · simp only [Outcome.error.injEq] at h
    exact h.symm
  · simp at h

theorem respondStatus_error (args : Option GoMap) (db : DB) (msg : String)
    (h : respondStatus args db = Outcome.error msg) :
    msg = unexpectedEnd ∨ msg = "strconv.Atoi: invalid syntax"
      ∨ msg = "strconv.Atoi: value out of range" := by
  unfold respondStatus at h
  split at h
  · split at h
    · rename_i v e hA
      simp only [Outcome.error.injEq] at h
      rw [← h]
      exact Or.inr (Atoi_error _ v e hA)
    · split at h
      · simp only [Outcome.error.injEq] at h
        exact Or.inl h.symm
      · simp at h
  · simp at h

theorem respondLogs_error (args : Option GoMap) (db : DB) (msg : String)
    (h : respondLogs args db = Outcome.error msg) :
    msg = unexpectedEnd ∨ msg = "strconv.Atoi: invalid syntax"
      ∨ msg = "strconv.Atoi: value out of range" := by
  unfold respondLogs at h
  split at h
  · rename_i v e hA
    simp only [Outcome.error.injEq] at h
    rw [← h]
    exact Or.inr (Atoi_error _ v e hA)
  · split at h
    · simp only [Outcome.error.injEq] at h
      exact Or.inl h.symm
    · split at h
      · simp at h
      · simp at h

theorem unknown_ne_shutdown (verb : String) : "Unknown command: " ++ verb ≠ "Shutdown" := by
  intro h
  have := congrArg (fun s => s.data.head?) h
  simp at this

theorem unknown_has_prefix (verb : String) :
    "Unknown command".data.isPrefixOf ("Unknown command: " ++ verb).data = true := by
  have e : "Unknown command: ".data = "Unknown command".data ++ [':', ' '] := by decide
  rw [String.data_append, e, List.append_assoc, List.isPrefixOf_iff_prefix]
  exact List.prefix_append _ _

theorem executeCommand_unknown (command : ClientCommand) (queue : JobQueue)
    (logs : LogStore) (now : Time) (h : command.Command ∉ knownVerbs) :
    executeCommand command queue logs now
      = (Outcome.error ("Unknown command: " ++ command.Command), queue) := by
  simp only [knownVerbs, List.mem_cons, List.mem_singleton, List.not_mem_nil, or_false,
    not_or] at h
  obtain ⟨h1, h2, h3, h4, h5⟩ := h
  simp [executeCommand, h1, h2, h3, h4, h5]

theorem executeCommand_shutdown (command : ClientCommand) (queue : JobQueue)
    (logs : LogStore) (now : Time) :
    (executeCommand command queue logs now).1 = Outcome.error "Shutdown"
      ↔ command.Command = "shutdown" := by
  constructor
  · intro h
    unfold executeCommand at h
    split at h
    · simp [respondDeploy] at h
    · split at h
      · exact absurd (respondRestart_error _ _ _ _ h) (by decide)
      · split at h
        · exact absurd (respondLogs_error _ _ _ h) (by decide)
        · split at h
          · exact absurd (respondStatus_error _ _ _ h) (by decide)
          · split at h
            · assumption
            · simp only [Outcome.error.injEq] at h
              exact absurd h (unknown_ne_shutdown _)
  · intro h
    simp [executeCommand, h]

theorem RunServer_running (s : Server) (now : Time) (incoming : Incoming) (t : Server)
    (hpass : RunServer s incoming now = Pass.next t) (hrun : s.running = true) :
    t.running = false
      ↔ incoming = Incoming.signal
        ∨ ∃ c, incoming = Incoming.conn (some c) ∧ c.Command = "shutdown" := by
  cases incoming with
  | signal =>
    simp only [RunServer, Pass.next.injEq] at hpass
    rw [← hpass]
    simp
  | conn decoded =>
    cases decoded with
    | none =>
      simp only [RunServer, Pass.next.injEq] at hpass
      rw [← hpass]
      simp [hrun]
    | some c =>
      have hsd := executeCommand_shutdown c s.queue s.logs now
      cases hex : executeCommand c s.queue s.logs now with
      | mk out q =>
        rw [hex] at hsd
        simp only [RunServer, hex] at hpass
        cases out with
        | panic msg => simp at hpass
        | ok response =>
          simp only [Pass.next.injEq] at hpass
          rw [← hpass]
          simp only [hrun, Bool.true_eq_false, false_iff, not_or, not_exists, not_and]
          refine ⟨by simp, ?_⟩
          intro c1 hc1 hverb
          simp only [Incoming.conn.injEq, Option.some.injEq] at hc1
          rw [← hc1] at hverb
          have := hsd.2 hverb
          simp at this
        | error msg =>
          simp only at hpass
          by_cases hm : msg = "Shutdown"
          · simp only [hm, if_true, Pass.next.injEq] at hpass
            rw [← hpass]
            simp only [true_iff]
            right
            refine ⟨c, rfl, hsd.1 ?_⟩
            simp only [hm]
          · simp only [hm, if_false] at hpass
            split at hpass
            · simp only [Pass.next.injEq] at hpass
              rw [← hpass]
              simp only [hrun, Bool.true_eq_false, false_iff, not_or, not_exists, not_and]
              refine ⟨by simp, ?_⟩
              intro c1 hc1 hverb
              simp only [Incoming.conn.injEq, Option.some.injEq] at hc1
              rw [← hc1] at hverb
              have := hsd.2 hverb
              simp only [Outcome.error.injEq] at this
              exact hm this
            · simp at hpass

/-- C10 as stated fails: on a connection whose line is malformed JSON the loop writes no
response line. -/
theorem malformed_not_answered :
    ¬ ∃ t, RunServer freshServer (Incoming.conn none) 0 = Pass.next t
        ∧ Answered freshServer t := by
  rintro ⟨t, hpass, h, hh, hw, _⟩
  simp only [RunServer, Pass.next.injEq] at hpass
  rw [← hpass] at hh
  simp only [freshServer, List.nil_append, List.cons.injEq, and_true] at hh
  rw [← hh] at hw
  exact hw rfl

/-- C10, amended: on a connection whose line is malformed JSON the loop of RunServer logs the
error, writes no response and stays running; on a command with an unknown verb it logs the
error, writes the empty response line, closes the connection and stays running; neither
touches the queue.  A pass of the loop clears `running` only for a termination signal or the
shutdown verb. -/
theorem RunServer_protocol_errors (s : Server) (now : Time) (command : ClientCommand)
    (hverb : command.Command ∉ knownVerbs) :
    (∃ t msg h, RunServer s (Incoming.conn none) now = Pass.next t
        ∧ t.logged = s.logged ++ [msg] ∧ t.handled = s.handled ++ [h] ∧ h.written = none
        ∧ t.running = s.running ∧ t.queue = s.queue)
    ∧ (∃ t, RunServer s (Incoming.conn (some command)) now = Pass.next t
        ∧ t.logged = s.logged ++ ["Unknown command: " ++ command.Command]
        ∧ t.handled = s.handled ++ [{ written := some none, closed := true }]
        ∧ Answered s t
        ∧ t.running = s.running ∧ t.queue = s.queue)
    ∧ (∀ incoming t, RunServer s incoming now = Pass.next t → s.running = true →
        (t.running = false
          ↔ incoming = Incoming.signal
            ∨ ∃ c, incoming = Incoming.conn (some c) ∧ c.Command = "shutdown")) := by
  refine ⟨?_, ?_, ?_⟩
  · exact ⟨_, "Error: invalid JSON", { written := none, closed := false }, rfl, rfl, rfl,
      rfl, rfl, rfl⟩
  · have hex := executeCommand_unknown command s.queue s.logs now hverb
    have hne := unknown_ne_shutdown command.Command
    have hpre := unknown_has_prefix command.Command
    refine ⟨{ s with
        logged := s.logged ++ ["Unknown command: " ++ command.Command]
        handled := s.handled ++ [{ written := some none, closed := true }] }, ?_, rfl, rfl,
      ?_, rfl, rfl⟩
    · simp only [RunServer, hex, hne, if_false, hpre, if_true]
    · exact ⟨{ written := some none, closed := true }, rfl, by simp, rfl⟩
  · intro incoming t hpass hrun
    exact RunServer_running s now incoming t hpass hrun

theorem RunServer_protocol_errors_witness :
    ({ Command := "frobnicate", Args := none } : ClientCommand).Command ∉ knownVerbs
    ∧ ∃ t, RunServer freshServer
          (Incoming.conn (some { Command := "frobnicate", Args := none })) 0 = Pass.next t
        ∧ t.logged = freshServer.logged ++ ["Unknown command: " ++ "frobnicate"]
        ∧ t.handled = freshServer.handled ++ [{ written := some none, closed := true }]
        ∧ Answered freshServer t
        ∧ t.running = freshServer.running ∧ t.queue = freshServer.queue :=
  ⟨by decide,
   (RunServer_protocol_errors freshServer 0 { Command := "frobnicate", Args := none }
      (by decide)).2.1⟩

/-! ## Where the code departs from its description -/

/-- C5 fails on the code: after a deploy naming a commit and a deploy naming none, the
dispatch of the second job writes the first job's commit into the second job's record and
sends the second job with it; and when the completion of the first job lands before the
second job is sent, the second job is sent with the first job's source. -/
theorem Args_leak_between_jobs :
    argOf (run (NewJobQueue Bucket.empty) twoAdds).jobs 2 "git" = none
    ∧ argOf (run (NewJobQueue Bucket.empty) twoDeploys).jobs 2 "git" = some "v1"
    ∧ sentArg (run (NewJobQueue Bucket.empty) (twoDeploys ++ [Event.dispatch])) 1 "git"
        = some "v1"
    ∧ sentArg (run (NewJobQueue Bucket.empty)
          (twoDeploys ++ [Event.finish 0 true, Event.dispatch])) 1 "source"
        = some "/srv/a" := by
  decide

/-- C8 fails on the code: with two stored jobs of different sources, the listing of
respondStatus shows job 2 with the source of job 1. -/
theorem respondStatus_shared_map :
    twoJobs.Get 2
        = some { Number := 2, Args := some (Finmap.singleton "source" "/srv/b"),
                 Status := JobStatus.Queued, Updated := 11 }
    ∧ respondStatus none { jobs := twoJobs, logs := none }
        = Outcome.ok (Response.status
            [{ Number := 2, Args := some (Finmap.singleton "source" "/srv/a"),
               Status := JobStatus.Queued, Updated := 11 },
             { Number := 1, Args := some (Finmap.singleton "source" "/srv/a"),
               Status := JobStatus.Succeeded, Updated := 10 }]) := by
  decide

/-- C9 fails on the code: a job added at instant 10, then marked Active by the dispatch loop
and Succeeded by FinishJob, is stored with Updated still 10, the instant of AddJob. -/
theorem Updated_is_creation_time :
    (run (NewJobQueue Bucket.empty) [Event.addJob none 10, Event.dispatch]).jobs.Get 1
        = some { Number := 1, Args := none, Status := JobStatus.Active, Updated := 10 }
    ∧ (run (NewJobQueue Bucket.empty) oneDeploy).jobs.Get 1
        = some { Number := 1, Args := none, Status := JobStatus.Succeeded, Updated := 10 } := by
  decide

/-! ## What a flush writes -/

theorem pad_keys (g : Nat) : (pad g).map Prod.fst = List.range' 1 g := by
  induction g with
  | zero => rfl
  | succ m ih =>
    rw [pad_succ, List.map_append, ih, range'_one_succ]
    rfl

theorem dbWorker_contents (ticks : List (List String)) (last : List String) :
    (dbWorker Bucket.empty ticks last).entries.map Prod.snd
        = List.replicate (ticks.length + 64) "" ++ (ticks.flatten ++ last)
    ∧ (dbWorker Bucket.empty ticks last).entries.map Prod.fst
        = List.range' 1 (ticks.length + 64 + (ticks.flatten ++ last).length) := by
  have h0 : LogInv 0 (Bucket.empty : Bucket String) (List.replicate 64 "") :=
    ⟨rfl, ⟨List.replicate 63 "", rfl⟩, fun _ => rfl, fun h => absurd h (by omega)⟩
  obtain ⟨h1, _, _, _, h4⟩ := dbWorkerLoop_inv (ticks ++ [last]) 0 Bucket.empty _ h0
  have hent := h4 (by simp)
  have hf : 0 + (ticks ++ [last]).length - 1 = ticks.length := by simp
  have hf1 : 0 + (ticks ++ [last]).length = ticks.length + 1 := by simp
  have hfl : (ticks ++ [last]).flatten = ticks.flatten ++ last := by simp
  unfold dbWorker
  rw [hent, hf, hf1, h1, hfl]
  refine ⟨?_, ?_⟩
  · rw [List.map_append, pad_values, block_values, ← List.append_assoc,
      List.append_replicate_replicate]
  · have hs : ticks.length + 1 = 1 + ticks.length := by omega
    rw [List.map_append, pad_keys, block_keys, hs, List.range'_append_1]
    congr 1
    simp only [List.length_append, List.length_replicate]
    omega

set_option maxRecDepth 100000 in
/-- C11 fails on the code: every flush writes the whole buffer, sixty-four empty strings
followed by all chunks received so far, from a key one above that of the previous flush.
After n chunks and the flushes of `ticks` and `last` the bucket holds the keys 1 to
`ticks.length + 64 + n`, of which the first `ticks.length + 64` hold empty strings.  One
chunk and one flush leave 65 records; a second flush overwrites the record of key 65, which
held the first chunk, and writes that chunk again under key 66. -/
theorem flush_rewrites_buffer :
    (∀ (ticks : List (List String)) (last : List String),
      (dbWorker Bucket.empty ticks last).entries.map Prod.snd
          = List.replicate (ticks.length + 64) "" ++ (ticks.flatten ++ last)
      ∧ (dbWorker Bucket.empty ticks last).entries.map Prod.fst
          = List.range' 1 (ticks.length + 64 + (ticks.flatten ++ last).length))
    ∧ (dbWorker Bucket.empty [] ["a"]).entries.length = 65
    ∧ (dbWorker Bucket.empty [] ["a"]).Get 1 = some ""
    ∧ (dbWorker Bucket.empty [] ["a"]).Get 65 = some "a"
    ∧ (dbWorker Bucket.empty [["a"]] ["b"]).Get 65 = some ""
    ∧ (dbWorker Bucket.empty [["a"]] ["b"]).Get 66 = some "a"
    ∧ (dbWorker Bucket.empty [["a"]] ["b"]).Get 67 = some "b"
    ∧ (dbWorker Bucket.empty [["a"]] ["b"]).entries.length = 67 := by
  refine ⟨dbWorker_contents, ?_⟩
  decide

/-! ## Queries for a job that is not stored -/

theorem Atoi_syntax_zero (s : String) (v : Int)
    (h : Atoi s = (v, some "strconv.Atoi: invalid syntax")) : v = 0 := by
  unfold Atoi at h
  simp only at h
  split_ifs at h <;> try split at h
  all_goals try split_ifs at h
  all_goals simp only [Prod.mk.injEq, Option.some.injEq, reduceCtorEq, and_false] at h
  all_goals first
    | exact h.1.symm
    | exact absurd h.2 (by decide)

theorem StoreOK_Get_zero (b : Bucket JobRecord) (n : Nat) (h : StoreOK b n) :
    b.Get 0 = none := by
  cases hg : b.Get 0 with
  | none => rfl
  | some r =>
    have := (StoreOK_Get b n 0 r h hg).2.1
    omega

theorem executeCommand_query (verb : String) (args : Option GoMap) (queue : JobQueue)
    (logs : LogStore) (now : Time) (hverb : verb ∈ queryVerbs) :
    executeCommand { Command := verb, Args := args } queue logs now
      = if verb = "restart" then respondRestart args queue now
        else if verb = "logs" then (respondLogs args { jobs := queue.jobs, logs := logs }, queue)
        else (respondStatus args { jobs := queue.jobs, logs := logs }, queue) := by
  simp only [queryVerbs, List.mem_cons, List.mem_singleton, List.not_mem_nil, or_false] at hverb
  rcases hverb with h | h | h <;> subst h <;> simp [executeCommand]

theorem RunServer_error_panics (s : Server) (now : Time) (command : ClientCommand)
    (msg : String) (queue : JobQueue)
    (hex : executeCommand command s.queue s.logs now = (Outcome.error msg, queue))
    (h1 : msg ≠ "Shutdown") (h2 : "Unknown command".data.isPrefixOf msg.data = false) :
    RunServer s (Incoming.conn (some command)) now = Pass.panic msg := by
  simp [RunServer, hex, h1, h2]

theorem respond_missing (queue : JobQueue) (logs : LogStore) (now : Time)
    (args : Option GoMap) (jobId : String) (number : Int)
    (harg : argLookup args "job" = some jobId) (hnum : Atoi jobId = (number, none))
    (hmiss : queue.jobs.Get (itob number) = none) :
    respondStatus args { jobs := queue.jobs, logs := logs } = Outcome.error unexpectedEnd
    ∧ respondRestart args queue now = (Outcome.error unexpectedEnd, queue)
    ∧ respondLogs args { jobs := queue.jobs, logs := logs } = Outcome.error unexpectedEnd := by
  refine ⟨?_, ?_, ?_⟩
  · simp only [respondStatus, harg, hnum, hmiss]
  · simp only [respondRestart, harg, Option.getD_some, hnum, hmiss]
  · simp only [respondLogs, harg, Option.getD_some, hnum, hmiss]

theorem respondRestart_not_a_number (queue : JobQueue) (n : Nat) (now : Time)
    (args : Option GoMap) (hok : StoreOK queue.jobs n)
    (hsyn : (Atoi ((argLookup args "job").getD "")).2 = some "strconv.Atoi: invalid syntax") :
    respondRestart args queue now = (Outcome.error unexpectedEnd, queue) := by
  have hz : (Atoi ((argLookup args "job").getD "")).1 = 0 :=
    Atoi_syntax_zero _ _ (by rw [← hsyn])
  have h0 : queue.jobs.Get (itob 0) = none := StoreOK_Get_zero queue.jobs n hok
  simp only [respondRestart, hz, h0]

/-- C12: for a status, restart or logs command whose job argument is a number under which no
job is stored, the handler returns the empty response with the error of json.Unmarshal on a
nil slice; that error is not "Shutdown" and does not begin with "Unknown command", so the
pass of the RunServer loop ends in its panic.  The same holds for a restart command whose job
argument is not a number: Atoi's error is dropped and job number 0 is looked up. -/
theorem missing_job_panics (s : Server) (now : Time) (n : Nat) (args : Option GoMap)
    (jobId : String) (number : Int)
    (hok : StoreOK s.queue.jobs n)
    (harg : argLookup args "job" = some jobId) (hnum : Atoi jobId = (number, none))
    (hmiss : s.queue.jobs.Get (itob number) = none) :
    respondStatus args { jobs := s.queue.jobs, logs := s.logs } = Outcome.error unexpectedEnd
    ∧ respondRestart args s.queue now = (Outcome.error unexpectedEnd, s.queue)
    ∧ respondLogs args { jobs := s.queue.jobs, logs := s.logs } = Outcome.error unexpectedEnd
    ∧ unexpectedEnd ≠ "Shutdown"
    ∧ "Unknown command".data.isPrefixOf unexpectedEnd.data = false
    ∧ (∀ verb, verb ∈ queryVerbs →
        RunServer s (Incoming.conn (some { Command := verb, Args := args })) now
          = Pass.panic unexpectedEnd)
    ∧ (∀ other : Option GoMap,
        (Atoi ((argLookup other "job").getD "")).2 = some "strconv.Atoi: invalid syntax" →
        respondRestart other s.queue now = (Outcome.error unexpectedEnd, s.queue)
        ∧ RunServer s (Incoming.conn (some { Command := "restart", Args := other })) now
            = Pass.panic unexpectedEnd) := by
  obtain ⟨r1, r2, r3⟩ := respond_missing s.queue s.logs now args jobId number harg hnum hmiss
  have hne : unexpectedEnd ≠ "Shutdown" := by decide
  have hpre : "Unknown command".data.isPrefixOf unexpectedEnd.data = false := by decide
  refine ⟨r1, r2, r3, hne, hpre, ?_, ?_⟩
  · intro verb hverb
    apply RunServer_error_panics s now _ unexpectedEnd s.queue _ hne hpre
    rw [executeCommand_query verb args s.queue s.logs now hverb]
    split
    · exact r2
    · split
      · rw [r3]
      · rw [r1]
  · intro other hsyn
    have hr := respondRestart_not_a_number s.queue n now other hok hsyn
    refine ⟨hr, ?_⟩
    apply RunServer_error_panics s now _ unexpectedEnd s.queue _ hne hpre
    rw [executeCommand_query "restart" other s.queue s.logs now (by decide)]
    simp only [if_true]
    exact hr

theorem missing_job_panics_witness :
    StoreOK busyServer.queue.jobs 2
    ∧ argLookup (some (Finmap.singleton "job" "7")) "job" = some "7"
    ∧ Atoi "7" = (7, none)
    ∧ busyServer.queue.jobs.Get (itob 7) = none
    ∧ RunServer busyServer
          (Incoming.conn (some { Command := "status",
                                 Args := some (Finmap.singleton "job" "7") })) 0
        = Pass.panic unexpectedEnd
    ∧ RunServer busyServer
          (Incoming.conn (some { Command := "restart",
                                 Args := some (Finmap.singleton "job" "seven") })) 0
        = Pass.panic unexpectedEnd :=
  ⟨by decide, by decide, by decide, by decide,
   (missing_job_panics busyServer 0 2 (some (Finmap.singleton "job" "7")) "7" 7
      (by decide) (by decide) (by decide) (by decide)).2.2.2.2.2.1 "status" (by decide),
   ((missing_job_panics busyServer 0 2 (some (Finmap.singleton "job" "7")) "7" 7
      (by decide) (by decide) (by decide) (by decide)).2.2.2.2.2.2
      (some (Finmap.singleton "job" "seven")) (by decide)).2⟩

end Integrad
